import Mathlib

/-!
Verification of the SmartCollage layout engine (`src/lib/collage.ts`).

The TypeScript source computes layouts with JavaScript numbers; the
embedding models that arithmetic exactly over `ℚ` (the layout algorithm is
closed under rational arithmetic: every operation it performs on numbers is
`+ - * /`, `Math.floor`, `Math.round`, `Math.min`, `Math.max`, `%`, and
comparisons).  The single transcendental operation, `Math.log` inside the
grid packer's squareness score, is handled by comparing scores on the
exponential scale: the source compares `Σ |log aᵢ| * cᵢ`, the embedding
compares `Π (max aᵢ aᵢ⁻¹) ^ cᵢ`, and since `exp`/`log` are strictly
monotone the two comparisons agree (this is proved and used where a claim
speaks about the `log` score).
-/

/-- `Rect` of collage.ts: `{x, y, width, height}` in canvas pixel units,
origin top-left.  Fields are rational, modelling JS numbers exactly. -/
structure Rect where
  x : ℚ
  y : ℚ
  width : ℚ
  height : ℚ
deriving DecidableEq

/-- The four ring region names of collage.ts (`RegionName`). -/
inductive RegionName where
  | top
  | right
  | bottom
  | left
deriving DecidableEq

/-- `Region` of collage.ts: `{name, rect, area}`. -/
structure Region where
  name : RegionName
  rect : Rect
  area : ℚ
deriving DecidableEq

/-- `CollageLayoutOptions` of collage.ts. -/
structure CollageLayoutOptions where
  size : ℚ
  mainRatio : ℚ
  gap : ℚ
  othersCount : ℚ
deriving DecidableEq

/-- `CollageLayout` of collage.ts.  `size` is the validated integer size. -/
structure CollageLayout where
  size : ℤ
  gap : ℚ
  mainRect : Rect
  ringCells : List Rect
deriving DecidableEq

/-- `clamp(value, min, max) = Math.min(max, Math.max(min, value))`. -/
def clamp (value lo hi : ℚ) : ℚ := min hi (max lo value)

/-- `Math.floor` on a JS number, as an integer. -/
def jsFloor (q : ℚ) : ℤ := ⌊q⌋

/-- `Math.max(0, Math.floor q)`, the pervasive coercion to a count. -/
def natFloor (q : ℚ) : ℕ := (⌊q⌋).toNat

/-- `Math.round`: round half toward positive infinity, `⌊q + 1/2⌋`. -/
def jsRound (q : ℚ) : ℤ := round q

/-- JS truncation toward zero (used by the `%` remainder). -/
def jsTrunc (q : ℚ) : ℤ := if 0 ≤ q then ⌊q⌋ else ⌈q⌉

/-- The JS remainder `a % b`: `a - b * trunc (a / b)` (sign of the dividend). -/
def jsRem (a b : ℚ) : ℚ := a - b * jsTrunc (a / b)

/-- `distribute(total, parts)` of collage.ts: largest-remainder integer
distribution.  `base = ⌊total/parts⌋` everywhere and the first
`total - base * parts` entries get one extra unit. -/
def distribute (total parts : ℚ) : List ℕ :=
  let safeParts : ℕ := (max 1 ⌊parts⌋).toNat
  let safeTotal : ℕ := (max 0 ⌊total⌋).toNat
  let base := safeTotal / safeParts
  let rem := safeTotal - base * safeParts
  (List.range safeParts).map (fun i => base + if i < rem then 1 else 0)

theorem distribute_def (total parts : ℚ) :
    distribute total parts =
      (List.range (max 1 ⌊parts⌋).toNat).map
        (fun i => (max 0 ⌊total⌋).toNat / (max 1 ⌊parts⌋).toNat +
          if i < (max 0 ⌊total⌋).toNat -
              (max 0 ⌊total⌋).toNat / (max 1 ⌊parts⌋).toNat * (max 1 ⌊parts⌋).toNat
            then 1 else 0) := rfl

theorem distribute_length (total parts : ℚ) :
    (distribute total parts).length = (max 1 ⌊parts⌋).toNat := by
  rw [distribute_def, List.length_map, List.length_range]

/-- Sum of a balanced base-plus-extras range. -/
theorem sum_range_base_extra (m q r : ℕ) :
    ((List.range m).map (fun i => q + if i < r then 1 else 0)).sum =
      m * q + min m r := by
  induction m with
  | zero => simp
  | succ k ih =>
    rw [List.range_succ, List.map_append, List.sum_append, ih]
    simp only [List.map_cons, List.map_nil, List.sum_cons, List.sum_nil]
    rw [Nat.succ_mul]
    by_cases hk : k < r
    · rw [if_pos hk, Nat.min_eq_left (Nat.le_of_lt hk), Nat.min_eq_left hk]
      omega
    · rw [if_neg hk, Nat.min_eq_right (Nat.le_of_not_lt hk),
        Nat.min_eq_right (Nat.le_succ_of_le (Nat.le_of_not_lt hk))]
      omega

/-- The entries of `distribute` sum to the floored total: the `rem` extra
units land on the first `rem` entries and `rem < safeParts`. -/
theorem distribute_sum (total parts : ℚ) :
    (distribute total parts).sum = (max 0 ⌊total⌋).toNat := by
  rw [distribute_def]
  set p : ℕ := (max 1 ⌊parts⌋).toNat with hp
  set t : ℕ := (max 0 ⌊total⌋).toNat with ht
  have hp0 : 0 < p := by
    have h1 : (1 : ℤ) ≤ max 1 ⌊parts⌋ := le_max_left _ _
    have h2 : ((max 1 ⌊parts⌋).toNat : ℤ) = max 1 ⌊parts⌋ :=
      Int.toNat_of_nonneg (le_trans zero_le_one h1)
    omega
  have hrem : t - t / p * p = t % p := by
    have h := Nat.div_add_mod t p
    rw [Nat.mul_comm (t / p) p]
    omega
  rw [hrem, sum_range_base_extra]
  have hmod : t % p < p := Nat.mod_lt _ hp0
  rw [Nat.min_eq_right (Nat.le_of_lt hmod)]
  exact Nat.div_add_mod t p

/-- Each entry of `distribute` is the floored quotient or one more. -/
theorem distribute_mem (total parts : ℚ) (n : ℕ) (hn : n ∈ distribute total parts) :
    n = (max 0 ⌊total⌋).toNat / (max 1 ⌊parts⌋).toNat ∨
      n = (max 0 ⌊total⌋).toNat / (max 1 ⌊parts⌋).toNat + 1 := by
  rw [distribute_def] at hn
  simp only [List.mem_map, List.mem_range] at hn
  obtain ⟨i, _, hi⟩ := hn
  by_cases h : i < (max 0 ⌊total⌋).toNat -
      (max 0 ⌊total⌋).toNat / (max 1 ⌊parts⌋).toNat * (max 1 ⌊parts⌋).toNat
  · right; rw [← hi]; simp [h]
  · left; rw [← hi]; simp [h]

/-- The entries of `distribute` are non-increasing: the larger entries come
first. -/
theorem distribute_sorted (total parts : ℚ) :
    (distribute total parts).Sorted (fun a b => b ≤ a) := by
  rw [distribute_def]
  apply List.pairwise_iff_getElem.mpr
  intro i j hi hj hij
  simp only [List.getElem_map, List.getElem_range]
  have : (if j < (max 0 ⌊total⌋).toNat -
        (max 0 ⌊total⌋).toNat / (max 1 ⌊parts⌋).toNat * (max 1 ⌊parts⌋).toNat
      then 1 else 0) ≤
      (if i < (max 0 ⌊total⌋).toNat -
        (max 0 ⌊total⌋).toNat / (max 1 ⌊parts⌋).toNat * (max 1 ⌊parts⌋).toNat
      then 1 else 0) := by
    by_cases hj2 : j < (max 0 ⌊total⌋).toNat -
        (max 0 ⌊total⌋).toNat / (max 1 ⌊parts⌋).toNat * (max 1 ⌊parts⌋).toNat
    · have hi2 : i < _ := lt_trans hij hj2
      simp [hj2, hi2]
    · simp [hj2]
  omega

/-- The clamped main-to-canvas ratio: `clamp(mainRatio, 0.05, 0.95)`. -/
def safeRatioOf (mainRatio : ℚ) : ℚ := clamp mainRatio (5/100) (95/100)

/-- The main square size before the parity nudge:
`clamp(Math.round(size * safeRatio), 1, size)`. -/
def mainSizeRaw (size mainRatio : ℚ) : ℚ :=
  clamp ((jsRound (size * safeRatioOf mainRatio) : ℤ) : ℚ) 1 size

/-- The parity nudge of `computeRegions`: keep `(size - mainSize)` even (so
the ring thickness is integral) by moving `mainSize` down by one when
possible, else up by one, else leaving it. -/
def mainSizeOf (size mainRatio : ℚ) : ℚ :=
  let mainSize1 := mainSizeRaw size mainRatio
  if jsRem (size - mainSize1) 2 ≠ 0 then
    let down := mainSize1 - 1
    let up := mainSize1 + 1
    if 1 ≤ down ∧ jsRem (size - down) 2 = 0 then down
    else if up ≤ size ∧ jsRem (size - up) 2 = 0 then up
    else mainSize1
  else mainSize1

/-- `ringT = Math.max(0, (size - mainSize) / 2)`. -/
def ringTOf (size mainRatio : ℚ) : ℚ := max 0 ((size - mainSizeOf size mainRatio) / 2)

/-- `computeRegions(size, mainRatio)` of collage.ts: clamp the ratio to
`[0.05, 0.95]`, round the main square size, nudge it so the ring thickness
`(size - mainSize) / 2` is integral when possible, and derive the centered
main rect plus the four ring rects in the order top, right, bottom, left. -/
def computeRegions (size mainRatio : ℚ) : Rect × List Region :=
  let mainSize := mainSizeOf size mainRatio
  let ringT := ringTOf size mainRatio
  let mainRect : Rect := ⟨ringT, ringT, mainSize, mainSize⟩
  let top : Rect := ⟨0, 0, size, ringT⟩
  let bottom : Rect := ⟨0, ringT + mainSize, size, ringT⟩
  let left : Rect := ⟨0, ringT, ringT, mainSize⟩
  let right : Rect := ⟨ringT + mainSize, ringT, ringT, mainSize⟩
  (mainRect,
    [⟨.top, top, top.width * top.height⟩,
     ⟨.right, right, right.width * right.height⟩,
     ⟨.bottom, bottom, bottom.width * bottom.height⟩,
     ⟨.left, left, left.width * left.height⟩])

/-- The `Record<RegionName, number>` returned by `allocateCounts`. -/
structure Counts where
  top : ℤ
  right : ℤ
  bottom : ℤ
  left : ℤ
deriving DecidableEq

/-- Sum of the four allocated counts (`Object.values(out).reduce(...)`). -/
def Counts.total (c : Counts) : ℤ := c.top + c.right + c.bottom + c.left

/-- One element of the `raw` working array inside `allocateCounts`. -/
structure AllocEntry where
  name : RegionName
  exactShare : ℚ
  base : ℤ
  frac : ℚ
deriving DecidableEq

/-- `raw[i].base += 1` for one index, preserving the rest of the array. -/
def modifyAt (f : AllocEntry → AllocEntry) : ℕ → List AllocEntry → List AllocEntry
  | _, [] => []
  | 0, e :: t => f e :: t
  | n + 1, e :: t => e :: modifyAt f n t

/-- `{...e, base: e.base + 1}`. -/
def incBase (e : AllocEntry) : AllocEntry := { e with base := e.base + 1 }

/-- The loop `for (let i = 0; i < remaining; i++) raw[i % raw.length].base += 1`,
unrolled from the right: `applyExtras l (k+1)` performs the iterations
`i = 0 .. k-1` and then the increment at index `k % l.length` (the
increments commute, and `modifyAt` preserves the length, so indexing into
the already-updated list is the same as indexing into the original). -/
def applyExtras (l : List AllocEntry) : ℕ → List AllocEntry
  | 0 => l
  | k + 1 => modifyAt incBase (k % l.length) (applyExtras l k)

/-- `out[r.name] = r.base` for one entry of the sorted array. -/
def assignCount (out : Counts) (e : AllocEntry) : Counts :=
  match e.name with
  | .top => { out with top := e.base }
  | .right => { out with right := e.base }
  | .bottom => { out with bottom := e.base }
  | .left => { out with left := e.base }

/-- The `raw` working array of `allocateCounts`: one entry per region with
its exact proportional share, its floor and its fractional remainder. -/
def allocRaw (safeTotal : ℕ) (ringArea : ℚ) (regions : List Region) : List AllocEntry :=
  regions.map (fun r =>
    let ex := (r.area / ringArea) * safeTotal
    AllocEntry.mk r.name ex ⌊ex⌋ (ex - ⌊ex⌋))

/-- The record built from the sorted, remainder-bumped working array (the
body of `allocateCounts` before the defensive sum fixup). -/
def allocOut (safeTotal : ℕ) (ringArea : ℚ) (regions : List Region) : Counts :=
  let raw := allocRaw safeTotal ringArea regions
  let used : ℤ := (raw.map AllocEntry.base).sum
  let remaining : ℤ := (safeTotal : ℤ) - used
  let sorted := List.insertionSort (fun a b => b.frac ≤ a.frac) raw
  let bumped := applyExtras sorted remaining.toNat
  bumped.foldl assignCount ⟨0, 0, 0, 0⟩

/-- `allocateCounts(total, regions)` of collage.ts: floor the total; in the
degenerate case return all zeros; otherwise give every region the floor of
its exact proportional share, sort by descending fractional remainder
(stably — JS `Array.prototype.sort` is stable, as is `List.insertionSort`),
hand the remaining units to the regions with the largest remainders, write
the per-name counts into a record, and finally force the record's sum to the
floored total through the defensive `out.top += diff` correction. -/
def allocateCounts (total : ℚ) (regions : List Region) : Counts :=
  let safeTotal : ℕ := natFloor total
  let ringArea : ℚ := (regions.map Region.area).sum
  if safeTotal = 0 ∨ ringArea ≤ 0 then ⟨0, 0, 0, 0⟩
  else
    let out := allocOut safeTotal ringArea regions
    let used2 := out.total
    if used2 ≠ (safeTotal : ℤ) then { out with top := out.top + ((safeTotal : ℤ) - used2) }
    else out

/-- `availableHeight = height - gap * (rows - 1)` inside the packer. -/
def availH (height gap rows : ℕ) : ℤ := (height : ℤ) - (gap : ℤ) * ((rows : ℤ) - 1)

/-- `availableWidth = width - gap * (rowCount - 1)` for a row of `c` cells. -/
def availW (width gap c : ℕ) : ℤ := (width : ℤ) - (gap : ℤ) * ((c : ℤ) - 1)

/-- Items in row `r` of a candidate with `rows` rows:
`base = ⌊n / rows⌋` plus one for the first `extra = n - base * rows` rows. -/
def rowCount (n rows r : ℕ) : ℕ :=
  let base := n / rows
  let extra := n - base * rows
  base + if r < extra then 1 else 0

/-- The geometric width check of one row: `availableWidth ≥ rowCount`. -/
def rowOk (width gap c : ℕ) : Bool := (c : ℤ) ≤ availW width gap c

/-- All rows of a candidate pass the width check (the source breaks at the
first failing row and skips the candidate; a candidate is scored only when
every row passes, which is the same condition). -/
def widthsOk (n width gap rows : ℕ) : Bool :=
  (List.range rows).all (fun r => rowOk width gap (rowCount n rows r))

/-- `rowHeight = availableHeight / rows` (exact JS division). -/
def rowH (height gap rows : ℕ) : ℚ := (availH height gap rows : ℚ) / (rows : ℚ)

/-- `cellW = availableWidth / rowCount` (exact JS division). -/
def cellW (width gap c : ℕ) : ℚ := (availW width gap c : ℚ) / (c : ℚ)

/-- `aspect = rowHeight === 0 ? 999 : cellW / rowHeight`. -/
def aspect (width height gap rows c : ℕ) : ℚ :=
  if rowH height gap rows = 0 then 999 else cellW width gap c / rowH height gap rows

/-- One row's squareness contribution on the exponential scale:
`exp (|log aspect| * rowCount) = (max aspect aspect⁻¹) ^ rowCount`. -/
def rowFactor (n width height gap rows r : ℕ) : ℚ :=
  let c := rowCount n rows r
  (max (aspect width height gap rows c) (aspect width height gap rows c)⁻¹) ^ c

/-- The candidate's score on the exponential scale: the source's score is
`Σ_r |log aspect_r| * rowCount_r` and this is `Π_r (max aspect_r aspect_r⁻¹) ^ rowCount_r
= exp` of it, so `<`-comparisons of the two agree. -/
def scoreMul (n width height gap rows : ℕ) : ℚ :=
  ((List.range rows).map (rowFactor n width height gap rows)).prod

/-- The search loop of `computeBestRowsNoWaste`, from `rows` for `fuel`
iterations, carrying the best `(rows, score)` so far.  The two `break`s
(`availableHeight < rows` and `base ≤ 0`) stop the whole loop; the failed
width check `continue`s. -/
def bestRowsGo (n width height gap : ℕ) : ℕ → ℕ → Option (ℕ × ℚ) → Option (ℕ × ℚ)
  | _, 0, best => best
  | rows, fuel + 1, best =>
    if availH height gap rows < (rows : ℤ) then best
    else if n / rows = 0 then best
    else if widthsOk n width gap rows then
      let s := scoreMul n width height gap rows
      match best with
      | none => bestRowsGo n width height gap (rows + 1) fuel (some (rows, s))
      | some (br, bs) =>
        if s < bs then bestRowsGo n width height gap (rows + 1) fuel (some (rows, s))
        else bestRowsGo n width height gap (rows + 1) fuel (some (br, bs))
    else bestRowsGo n width height gap (rows + 1) fuel best

/-- `computeBestRowsNoWaste` of collage.ts.  Arguments are floored with
`Math.max(0, Math.floor(...))`; the result is `some 0` for the early
return `0`, `none` for `null`, and `some rows` for a found best row count
(the loop runs `rows = 1 .. min n h`, so `fuel = min n h`). -/
def computeBestRowsNoWaste (count width height gap : ℚ) : Option ℕ :=
  let n := natFloor count
  let w := natFloor width
  let h := natFloor height
  let g := natFloor gap
  if n = 0 ∨ w = 0 ∨ h = 0 then some 0
  else (bestRowsGo n w h g 1 (min n h) none).map Prod.fst

/-- The inner cell-emission loop of `tryBuildCellsFilled` for one row:
starting at `x`, push a cell of each width in turn, advancing
`x += colWidths[c] + gap`. -/
def emitRow (y : ℚ) (rh gap : ℕ) : ℚ → List ℕ → List Rect
  | _, [] => []
  | x, w :: ws => ⟨x, y, (w : ℚ), (rh : ℚ)⟩ :: emitRow y rh gap (x + w + gap) ws

/-- The outer cell-emission loop of `tryBuildCellsFilled`: for each
`(rowCount, rowHeight)` pair re-check the row's width, distribute the
column widths, emit the row at `y`, and advance `y += rowHeights[r] + gap`.
`none` models the `return null` on a failed width check.  (The source's
`if (cells.length === n) break` early exits are dropped: every row count is
at least `base ≥ 1` and the row counts sum to exactly `n`, so the breaks
fire only at the natural end of the loops.) -/
def emitRows (x0 : ℚ) (width gap : ℕ) : ℚ → List (ℕ × ℕ) → Option (List Rect)
  | _, [] => some []
  | y, (c, rh) :: rest =>
    if availW width gap c < (c : ℤ) then none
    else
      match emitRows x0 width gap (y + rh + gap) rest with
      | none => none
      | some cells =>
          some (emitRow y rh gap x0 (distribute (availW width gap c : ℚ) (c : ℚ)) ++ cells)

/-- `tryBuildCellsFilled({rect, count, gap})` of collage.ts: floor the
count (empty list for 0), round the rect, reject non-positive dimensions,
find the best row count, rebuild the per-row counts and heights, and emit
the cells row-major; `none` models every `return null`. -/
def tryBuildCellsFilled (rect : Rect) (count gap : ℚ) : Option (List Rect) :=
  let n := natFloor count
  if n = 0 then some []
  else
    let g := natFloor gap
    let x0 : ℚ := (jsRound rect.x : ℤ)
    let y0 : ℚ := (jsRound rect.y : ℤ)
    let width := jsRound rect.width
    let height := jsRound rect.height
    if width ≤ 0 ∨ height ≤ 0 then none
    else
      match computeBestRowsNoWaste (n : ℚ) (width : ℚ) (height : ℚ) (g : ℚ) with
      | none => none
      | some rows =>
        if rows = 0 then none
        else if n / rows = 0 then none
        else
          let w := width.toNat
          let h := height.toNat
          if availH h g rows < (rows : ℤ) then none
          else
            let rowHeights := distribute (availH h g rows : ℚ) (rows : ℚ)
            let rcs := (List.range rows).map (rowCount n rows)
            match emitRows x0 w g y0 (rcs.zip rowHeights) with
            | none => none
            | some cells => if cells.length = n then some cells else none

/-- The retry loop of `buildCellsFilled`: try the current gap, halve it
(integer floor) between attempts. -/
def buildAttempt (rect : Rect) (n : ℕ) : ℕ → ℕ → Option (List Rect)
  | _, 0 => none
  | g, attempt + 1 =>
    match tryBuildCellsFilled rect (n : ℚ) (g : ℚ) with
    | some cells => some cells
    | none => buildAttempt rect n (g / 2) attempt

/-- `buildCellsFilled(rect, count, gap)` of collage.ts: four attempts with
a halving gap, then a last resort at `gap = 0`, else the empty list. -/
def buildCellsFilled (rect : Rect) (count gap : ℚ) : List Rect :=
  let n := natFloor count
  if n = 0 then []
  else
    match buildAttempt rect n (natFloor gap) 4 with
    | some cells => cells
    | none => (tryBuildCellsFilled rect (n : ℚ) 0).getD []

/-- The count allocated to a named region (`counts[region.name]`). -/
def countFor (c : Counts) : RegionName → ℤ
  | .top => c.top
  | .right => c.right
  | .bottom => c.bottom
  | .left => c.left

/-- The validated size: `Math.max(64, Math.floor(options.size))`. -/
def layoutSize (options : CollageLayoutOptions) : ℤ := max 64 ⌊options.size⌋

/-- The clamped gap: `clamp(options.gap, 0, Math.floor(size / 8))`. -/
def layoutGap (options : CollageLayoutOptions) : ℚ :=
  clamp options.gap 0 ((⌊((layoutSize options : ℤ) : ℚ) / 8⌋ : ℤ) : ℚ)

/-- The regions of the layout under computation. -/
def layoutRegions (options : CollageLayoutOptions) : List Region :=
  (computeRegions ((layoutSize options : ℤ) : ℚ) options.mainRatio).2

/-- The per-region counts of the layout under computation. -/
def layoutCounts (options : CollageLayoutOptions) : Counts :=
  allocateCounts ((natFloor options.othersCount : ℕ) : ℚ) (layoutRegions options)

/-- `computeCollageLayout(options)` of collage.ts: validate the size
(floor, minimum 64), clamp the gap to `[0, ⌊size/8⌋]`, floor the count,
compute regions and counts, and concatenate the per-region cells in the
region order top, right, bottom, left. -/
def computeCollageLayout (options : CollageLayoutOptions) : CollageLayout :=
  let ringCells := ((layoutRegions options).map (fun region =>
    buildCellsFilled region.rect ((countFor (layoutCounts options) region.name : ℤ) : ℚ)
      (layoutGap options))).flatten
  { size := layoutSize options
    gap := layoutGap options
    mainRect := (computeRegions ((layoutSize options : ℤ) : ℚ) options.mainRatio).1
    ringCells := ringCells }

/-- Flooring an already-natural JS number is the identity. -/
theorem natFloor_natCast (n : ℕ) : natFloor ((n : ℕ) : ℚ) = n := by
  simp [natFloor]

/-- Flooring an already-integral JS number is the identity. -/
theorem natFloor_intCast (k : ℤ) : natFloor ((k : ℤ) : ℚ) = k.toNat := by
  simp [natFloor]

/-- The fixup `if (used !== safeTotal) out.top += diff` at the end of
`allocateCounts` forces the sum of the four counts to the requested total. -/
theorem counts_fixup_total (out : Counts) (tot : ℤ) :
    (if out.total ≠ tot then { out with top := out.top + (tot - out.total) } else out).total
      = tot := by
  by_cases h : out.total ≠ tot
  · rw [if_pos h]
    simp only [Counts.total] at *
    omega
  · rw [if_neg h]
    omega

/-- The claim C2: for four regions, the counts allocated by `allocateCounts`
sum to exactly the total whenever the combined area is positive, and in the
degenerate case (`total = 0` or combined area `≤ 0`) every region gets 0. -/
theorem allocateCounts_sum_eq (total : ℕ) (regions : List Region)
    (_hlen : regions.length = 4) :
    (0 < (regions.map Region.area).sum →
      (allocateCounts ((total : ℕ) : ℚ) regions).total = total) ∧
    ((total = 0 ∨ (regions.map Region.area).sum ≤ 0) →
      allocateCounts ((total : ℕ) : ℚ) regions = ⟨0, 0, 0, 0⟩) := by
  constructor
  · intro hpos
    simp only [allocateCounts, natFloor_natCast]
    by_cases h0 : total = 0
    · rw [if_pos (Or.inl h0)]
      simp [Counts.total, h0]
    · rw [if_neg (by push_neg; exact ⟨h0, hpos⟩)]
      exact counts_fixup_total _ _
  · intro hdeg
    simp only [allocateCounts, natFloor_natCast]
    rw [if_pos hdeg]

/-- The claim C6: `distribute(total, parts)` returns exactly `parts`
non-negative integers summing to `⌊total⌋`, each the floored quotient
`⌊total / parts⌋` or one more, larger entries first. -/
theorem distribute_spec (total : ℚ) (parts : ℕ) (htotal : 0 ≤ total) (hparts : 1 ≤ parts) :
    (distribute total ((parts : ℕ) : ℚ)).length = parts ∧
    (((distribute total ((parts : ℕ) : ℚ)).sum : ℕ) : ℤ) = ⌊total⌋ ∧
    (∀ n ∈ distribute total ((parts : ℕ) : ℚ),
      (n : ℤ) = ⌊total / (parts : ℚ)⌋ ∨ (n : ℤ) = ⌊total / (parts : ℚ)⌋ + 1) ∧
    (distribute total ((parts : ℕ) : ℚ)).Sorted (fun a b => b ≤ a) := by
  have hfp : (⌊((parts : ℕ) : ℚ)⌋ : ℤ) = (parts : ℤ) := Int.floor_natCast parts
  have hmax1 : max 1 (⌊((parts : ℕ) : ℚ)⌋ : ℤ) = (parts : ℤ) := by
    rw [hfp]
    exact max_eq_right (by exact_mod_cast hparts)
  have hp : (max 1 (⌊((parts : ℕ) : ℚ)⌋ : ℤ)).toNat = parts := by
    rw [hmax1, Int.toNat_natCast]
  have hft : (0 : ℤ) ≤ ⌊total⌋ := Int.floor_nonneg.mpr htotal
  have hmax0 : max 0 ⌊total⌋ = ⌊total⌋ := max_eq_right hft
  have ht : ((max 0 ⌊total⌋).toNat : ℤ) = ⌊total⌋ := by
    rw [hmax0]
    exact Int.toNat_of_nonneg hft
  have hquot : (((max 0 ⌊total⌋).toNat / (max 1 (⌊((parts : ℕ) : ℚ)⌋ : ℤ)).toNat : ℕ) : ℤ)
      = ⌊total / (parts : ℚ)⌋ := by
    rw [hp, hmax0, Int.floor_toNat, ← Nat.floor_div_nat total parts]
    exact Int.natCast_floor_eq_floor (div_nonneg htotal (Nat.cast_nonneg parts))
  refine ⟨?_, ?_, ?_, distribute_sorted _ _⟩
  · rw [distribute_length, hp]
  · rw [distribute_sum, ht]
  · intro n hn
    rcases distribute_mem total ((parts : ℕ) : ℚ) n hn with h | h
    · left
      rw [h]
      exact hquot
    · right
      rw [h]
      push_cast [← hquot]
      ring

/-- Witness for C2 at a concrete input: the four regions of a 100px canvas
with ratio 1/2 and 12 ring images. -/
theorem allocateCounts_sum_eq_witness :
    ((computeRegions 100 (1/2)).2.length = 4) ∧
    ((0 < ((computeRegions 100 (1/2)).2.map Region.area).sum →
      (allocateCounts ((12 : ℕ) : ℚ) (computeRegions 100 (1/2)).2).total = 12) ∧
    ((12 = 0 ∨ ((computeRegions 100 (1/2)).2.map Region.area).sum ≤ 0) →
      allocateCounts ((12 : ℕ) : ℚ) (computeRegions 100 (1/2)).2 = ⟨0, 0, 0, 0⟩)) :=
  ⟨by with_unfolding_all decide,
    allocateCounts_sum_eq 12 (computeRegions 100 (1/2)).2 (by with_unfolding_all decide)⟩

/-- Witness for C6 at a concrete input: 7 units over 3 parts. -/
theorem distribute_spec_witness :
    ((0 : ℚ) ≤ 7 ∧ (1 : ℕ) ≤ 3) ∧
    ((distribute 7 ((3 : ℕ) : ℚ)).length = 3 ∧
      (((distribute 7 ((3 : ℕ) : ℚ)).sum : ℕ) : ℤ) = ⌊(7 : ℚ)⌋ ∧
      (∀ n ∈ distribute 7 ((3 : ℕ) : ℚ),
        (n : ℤ) = ⌊(7 : ℚ) / ((3 : ℕ) : ℚ)⌋ ∨ (n : ℤ) = ⌊(7 : ℚ) / ((3 : ℕ) : ℚ)⌋ + 1) ∧
      (distribute 7 ((3 : ℕ) : ℚ)).Sorted (fun a b => b ≤ a)) :=
  ⟨⟨by norm_num, by norm_num⟩, distribute_spec 7 3 (by norm_num) (by norm_num)⟩

/-- The claim C8: `computeCollageLayout` is a pure function of its options
record — identical inputs yield identical sizes, gaps, main rects and ring
cells (the embedding has no other inputs and collage.ts consults no
ambient state in the layout path). -/
theorem computeCollageLayout_deterministic (o₁ o₂ : CollageLayoutOptions) (h : o₁ = o₂) :
    (computeCollageLayout o₁).size = (computeCollageLayout o₂).size ∧
    (computeCollageLayout o₁).gap = (computeCollageLayout o₂).gap ∧
    (computeCollageLayout o₁).mainRect = (computeCollageLayout o₂).mainRect ∧
    (computeCollageLayout o₁).ringCells = (computeCollageLayout o₂).ringCells := by
  subst h
  exact ⟨rfl, rfl, rfl, rfl⟩

/-- Witness for C8 at a concrete input. -/
theorem computeCollageLayout_deterministic_witness :
    ((⟨100, 1/2, 0, 12⟩ : CollageLayoutOptions) = ⟨100, 1/2, 0, 12⟩) ∧
    ((computeCollageLayout ⟨100, 1/2, 0, 12⟩).size = (computeCollageLayout ⟨100, 1/2, 0, 12⟩).size ∧
    (computeCollageLayout ⟨100, 1/2, 0, 12⟩).gap = (computeCollageLayout ⟨100, 1/2, 0, 12⟩).gap ∧
    (computeCollageLayout ⟨100, 1/2, 0, 12⟩).mainRect
      = (computeCollageLayout ⟨100, 1/2, 0, 12⟩).mainRect ∧
    (computeCollageLayout ⟨100, 1/2, 0, 12⟩).ringCells
      = (computeCollageLayout ⟨100, 1/2, 0, 12⟩).ringCells) :=
  ⟨rfl, computeCollageLayout_deterministic _ _ rfl⟩

set_option maxRecDepth 4000 in
/-- Counterexample to C1 as universally stated: at `size = 64`,
`mainRatio = 0.95`, `gap = 0`, `othersCount = 1000`, every ring region is
allocated more cells than it has pixels, each region's packer gives up, and
the layout returns no ring cells at all — not 1000. -/
theorem computeCollageLayout_drops_cells :
    (computeCollageLayout ⟨64, 95/100, 0, 1000⟩).ringCells.length = 0 ∧
    natFloor (1000 : ℚ) = 1000 := by
  constructor
  · with_unfolding_all decide
  · with_unfolding_all decide

/-- Counterexample to C3 as stated: a 1×1 rectangle has positive area and
`n = 2 > 0`, yet even the zero-gap packing cannot give each of 2 cells a
positive width, so `buildCellsFilled` returns the empty list. -/
theorem buildCellsFilled_empty_positive_area :
    buildCellsFilled ⟨0, 0, 1, 1⟩ 2 0 = [] ∧
    natFloor (2 : ℚ) ≠ 0 ∧
    (0 : ℚ) < (Rect.mk 0 0 1 1).width * (Rect.mk 0 0 1 1).height := by
  refine ⟨?_, ?_, ?_⟩
  · with_unfolding_all decide
  · with_unfolding_all decide
  · with_unfolding_all decide

/-- A candidate row count the search loop accepts: in range `1 .. min n h`,
`availableHeight ≥ rows` (every row gets at least 1px) and every row's
`availableWidth ≥ rowCount` (every cell gets at least 1px).  The loop's
`base ≤ 0` break never fires in range since `rows ≤ n` makes `⌊n/rows⌋ ≥ 1`. -/
def feasibleRows (n width height gap rows : ℕ) : Prop :=
  1 ≤ rows ∧ rows ≤ min n height ∧ (rows : ℤ) ≤ availH height gap rows ∧
    widthsOk n width gap rows = true

instance (n width height gap rows : ℕ) : Decidable (feasibleRows n width height gap rows) := by
  unfold feasibleRows
  infer_instance

/-- `availableHeight` is antitone in the row count. -/
theorem availH_anti (height gap : ℕ) {rows rows' : ℕ} (h : rows ≤ rows') :
    availH height gap rows' ≤ availH height gap rows := by
  unfold availH
  have h1 : ((rows : ℤ) - 1) ≤ ((rows' : ℤ) - 1) := by
    omega
  have h2 : (gap : ℤ) * ((rows : ℤ) - 1) ≤ (gap : ℤ) * ((rows' : ℤ) - 1) :=
    mul_le_mul_of_nonneg_left h1 (by positivity)
  omega

/-- Once the height break fires, no later candidate is feasible. -/
theorem prune_height (n width height gap rows : ℕ)
    (hbreak : availH height gap rows < (rows : ℤ)) :
    ∀ r, rows ≤ r → ¬ feasibleRows n width height gap r := by
  intro r hr hfeas
  obtain ⟨-, -, hH, -⟩ := hfeas
  have := availH_anti height gap hr
  omega

/-- Once the base break fires, no later candidate is feasible. -/
theorem prune_base (n width height gap rows : ℕ) (h1 : 1 ≤ rows)
    (hbreak : n / rows = 0) :
    ∀ r, rows ≤ r → ¬ feasibleRows n width height gap r := by
  intro r hr hfeas
  obtain ⟨-, hrange, -, -⟩ := hfeas
  have hlt : n < rows := by
    rcases Nat.lt_or_ge n rows with h | h
    · exact h
    · have := Nat.one_le_div_iff (Nat.lt_of_lt_of_le Nat.zero_lt_one h1) |>.mpr h
      omega
  have : r ≤ n := le_trans hrange (min_le_left _ _)
  omega

/-- The loop invariant of `bestRowsGo`: what `best` holds after the
candidates `1 .. bound - 1` have been examined.  `none` means none was
feasible; `some (br, bs)` means `br` is the first feasible candidate of
minimal score below `bound` and `bs` its score. -/
def IsBestUpTo (n width height gap bound : ℕ) : Option (ℕ × ℚ) → Prop
  | none => ∀ r, feasibleRows n width height gap r → bound ≤ r
  | some p => feasibleRows n width height gap p.1 ∧ p.1 < bound ∧
      p.2 = scoreMul n width height gap p.1 ∧
      (∀ r, feasibleRows n width height gap r → r < bound →
        p.2 ≤ scoreMul n width height gap r) ∧
      (∀ r, feasibleRows n width height gap r → r < p.1 →
        p.2 < scoreMul n width height gap r)

/-- Extending the invariant's bound across a range with no feasible candidate. -/
theorem isBestUpTo_extend (n width height gap rows bound : ℕ) (best : Option (ℕ × ℚ))
    (hb : rows ≤ bound)
    (hprune : ∀ r, rows ≤ r → ¬ feasibleRows n width height gap r)
    (hinv : IsBestUpTo n width height gap rows best) :
    IsBestUpTo n width height gap bound best := by
  cases best with
  | none =>
    intro r hr
    exact absurd hr (hprune r (hinv r hr))
  | some p =>
    obtain ⟨hf, hlt, hs, hmin, hstrict⟩ := hinv
    refine ⟨hf, lt_of_lt_of_le hlt hb, hs, ?_, hstrict⟩
    intro r hr hrb
    rcases Nat.lt_or_ge r rows with h | h
    · exact hmin r hr h
    · exact absurd hr (hprune r h)

/-- Extending the bound by one over an infeasible candidate. -/
theorem isBestUpTo_skip (n width height gap rows : ℕ) (best : Option (ℕ × ℚ))
    (hinfeas : ¬ feasibleRows n width height gap rows)
    (hinv : IsBestUpTo n width height gap rows best) :
    IsBestUpTo n width height gap (rows + 1) best := by
  cases best with
  | none =>
    intro r hr
    have := hinv r hr
    rcases Nat.eq_or_lt_of_le this with h | h
    · exact absurd (h ▸ hr) hinfeas
    · omega
  | some p =>
    obtain ⟨hf, hlt, hs, hmin, hstrict⟩ := hinv
    refine ⟨hf, by omega, hs, ?_, hstrict⟩
    intro r hr hrb
    rcases Nat.lt_succ_iff_lt_or_eq.mp hrb with h | h
    · exact hmin r hr h
    · exact absurd (h ▸ hr) hinfeas

/-- Accepting a feasible candidate when nothing was held yet. -/
theorem isBestUpTo_accept_none (n width height gap rows : ℕ)
    (hfeas : feasibleRows n width height gap rows)
    (hinv : IsBestUpTo n width height gap rows none) :
    IsBestUpTo n width height gap (rows + 1)
      (some (rows, scoreMul n width height gap rows)) := by
  refine ⟨hfeas, by omega, rfl, ?_, ?_⟩
  · intro r hr hrb
    rcases Nat.lt_succ_iff_lt_or_eq.mp hrb with h | h
    · have := hinv r hr
      omega
    · subst h
      exact le_refl _
  · intro r hr hrb
    have := hinv r hr
    omega

/-- Accepting a feasible candidate that strictly beats the held score. -/
theorem isBestUpTo_accept_better (n width height gap rows br : ℕ) (bs : ℚ)
    (hfeas : feasibleRows n width height gap rows)
    (hlt : scoreMul n width height gap rows < bs)
    (hinv : IsBestUpTo n width height gap rows (some (br, bs))) :
    IsBestUpTo n width height gap (rows + 1)
      (some (rows, scoreMul n width height gap rows)) := by
  obtain ⟨hf, hblt, hs, hmin, hstrict⟩ := hinv
  refine ⟨hfeas, by omega, rfl, ?_, ?_⟩
  · intro r hr hrb
    rcases Nat.lt_succ_iff_lt_or_eq.mp hrb with h | h
    · exact le_of_lt (lt_of_lt_of_le hlt (hmin r hr h))
    · subst h
      exact le_refl _
  · intro r hr hrb
    exact lt_of_lt_of_le hlt (hmin r hr hrb)

/-- Keeping the held best when the new candidate does not strictly beat it. -/
theorem isBestUpTo_keep (n width height gap rows br : ℕ) (bs : ℚ)
    (hfeas : feasibleRows n width height gap rows)
    (hge : bs ≤ scoreMul n width height gap rows)
    (hinv : IsBestUpTo n width height gap rows (some (br, bs))) :
    IsBestUpTo n width height gap (rows + 1) (some (br, bs)) := by
  obtain ⟨hf, hblt, hs, hmin, hstrict⟩ := hinv
  refine ⟨hf, by omega, hs, ?_, hstrict⟩
  intro r hr hrb
  rcases Nat.lt_succ_iff_lt_or_eq.mp hrb with h | h
  · exact hmin r hr h
  · subst h
    exact hge

/-- The search loop keeps the first-found minimal-score feasible candidate:
starting at `rows` with the invariant for the examined prefix and enough
fuel to reach `min n height`, the loop ends with the invariant for the whole
candidate range. -/
theorem bestRowsGo_spec (n width height gap : ℕ) :
    ∀ fuel rows best, 1 ≤ rows → rows + fuel = min n height + 1 →
      IsBestUpTo n width height gap rows best →
      IsBestUpTo n width height gap (min n height + 1)
        (bestRowsGo n width height gap rows fuel best) := by
  intro fuel
  induction fuel with
  | zero =>
    intro rows best h1 hsum hinv
    have hb : rows = min n height + 1 := by omega
    rw [bestRowsGo, ← hb]
    exact hinv
  | succ k ih =>
    intro rows best h1 hsum hinv
    rw [bestRowsGo]
    by_cases hH : availH height gap rows < (rows : ℤ)
    · rw [if_pos hH]
      exact isBestUpTo_extend n width height gap rows _ best (by omega)
        (prune_height n width height gap rows hH) hinv
    · rw [if_neg hH]
      by_cases hB : n / rows = 0
      · rw [if_pos hB]
        exact isBestUpTo_extend n width height gap rows _ best (by omega)
          (prune_base n width height gap rows h1 hB) hinv
      · rw [if_neg hB]
        by_cases hW : widthsOk n width gap rows = true
        · rw [if_pos hW]
          have hfeas : feasibleRows n width height gap rows :=
            ⟨h1, by omega, le_of_not_lt hH, hW⟩
          cases best with
          | none =>
            exact ih (rows + 1) _ (by omega) (by omega)
              (isBestUpTo_accept_none n width height gap rows hfeas hinv)
          | some p =>
            obtain ⟨br, bs⟩ := p
            dsimp only
            by_cases hlt : scoreMul n width height gap rows < bs
            · rw [if_pos hlt]
              exact ih (rows + 1) _ (by omega) (by omega)
                (isBestUpTo_accept_better n width height gap rows br bs hfeas hlt hinv)
            · rw [if_neg hlt]
              exact ih (rows + 1) _ (by omega) (by omega)
                (isBestUpTo_keep n width height gap rows br bs hfeas (le_of_not_lt hlt) hinv)
        · rw [if_neg hW]
          exact ih (rows + 1) best (by omega) (by omega)
            (isBestUpTo_skip n width height gap rows best
              (fun hfeas => hW hfeas.2.2.2) hinv)

/-- The row count returned by `computeBestRowsNoWaste` is a feasible
candidate of minimal multiplicative score, and the first such. -/
theorem computeBestRowsNoWaste_spec (n w h g : ℕ) (hn : 1 ≤ n) (hw : 1 ≤ w) (hh : 1 ≤ h)
    (r : ℕ) (hr : computeBestRowsNoWaste ((n : ℕ) : ℚ) ((w : ℕ) : ℚ) ((h : ℕ) : ℚ)
      ((g : ℕ) : ℚ) = some r) :
    feasibleRows n w h g r ∧
    (∀ q, feasibleRows n w h g q → scoreMul n w h g r ≤ scoreMul n w h g q) ∧
    (∀ q, feasibleRows n w h g q → q < r → scoreMul n w h g r < scoreMul n w h g q) := by
  have hcond : ¬(n = 0 ∨ w = 0 ∨ h = 0) := by omega
  simp only [computeBestRowsNoWaste, natFloor_natCast, if_neg hcond] at hr
  have hinv := bestRowsGo_spec n w h g (min n h) 1 none (le_refl 1) (by omega)
    (fun q hq => hq.1)
  cases hres : bestRowsGo n w h g 1 (min n h) none with
  | none =>
    rw [hres] at hr
    simp at hr
  | some p =>
    obtain ⟨r', s⟩ := p
    rw [hres] at hr
    simp only [Option.map_some'] at hr
    have hr' : r' = r := Option.some_injective _ hr
    rw [hres] at hinv
    obtain ⟨hf, hlt, hs, hmin, hstrict⟩ := hinv
    subst hr'
    rw [hs] at hmin hstrict
    refine ⟨hf, ?_, hstrict⟩
    intro q hq
    exact hmin q hq (by have := hq.2.1; omega)

/-- When any feasible candidate exists, the search does not return `null`. -/
theorem computeBestRowsNoWaste_total (n w h g : ℕ) (hn : 1 ≤ n) (hw : 1 ≤ w) (hh : 1 ≤ h)
    (q : ℕ) (hq : feasibleRows n w h g q) :
    ∃ r, computeBestRowsNoWaste ((n : ℕ) : ℚ) ((w : ℕ) : ℚ) ((h : ℕ) : ℚ)
      ((g : ℕ) : ℚ) = some r ∧ 1 ≤ r := by
  have hcond : ¬(n = 0 ∨ w = 0 ∨ h = 0) := by omega
  have hinv := bestRowsGo_spec n w h g (min n h) 1 none (le_refl 1) (by omega)
    (fun q hq => hq.1)
  simp only [computeBestRowsNoWaste, natFloor_natCast, if_neg hcond]
  cases hres : bestRowsGo n w h g 1 (min n h) none with
  | none =>
    rw [hres] at hinv
    have hub := hinv q hq
    have := le_trans hq.2.1 (min_le_left n h)
    have hqh := hq.2.1
    omega
  | some p =>
    rw [hres] at hinv
    exact ⟨p.1, by simp, hinv.1.1⟩

/-- `rowCount` unfolded to the balanced base-plus-extras shape. -/
theorem rowCount_eq (n rows r : ℕ) :
    rowCount n rows r = n / rows + if r < n - n / rows * rows then 1 else 0 := rfl

/-- The per-row counts of a candidate sum to exactly `n`. -/
theorem sum_rowCounts (n rows : ℕ) (h1 : 1 ≤ rows) :
    ((List.range rows).map (rowCount n rows)).sum = n := by
  have heq : (List.range rows).map (rowCount n rows) =
      (List.range rows).map (fun i => n / rows + if i < n - n / rows * rows then 1 else 0) := rfl
  rw [heq, sum_range_base_extra]
  have hrem : n - n / rows * rows = n % rows := by
    have h := Nat.div_add_mod n rows
    rw [Nat.mul_comm (n / rows) rows]
    omega
  rw [hrem, Nat.min_eq_right (Nat.le_of_lt (Nat.mod_lt _ h1))]
  exact Nat.div_add_mod n rows

/-- Every row of an in-range candidate holds at least one item. -/
theorem rowCount_ge_one (n rows r : ℕ) (h1 : 1 ≤ rows) (hn : rows ≤ n) :
    1 ≤ rowCount n rows r := by
  rw [rowCount_eq]
  have : 1 ≤ n / rows := (Nat.one_le_div_iff (by omega)).mpr hn
  omega

/-- Unpacking the `widthsOk` check for one row. -/
theorem widthsOk_mem (n w g rows r : ℕ) (hW : widthsOk n w g rows = true) (hr : r < rows) :
    (rowCount n rows r : ℤ) ≤ availW w g (rowCount n rows r) := by
  unfold widthsOk at hW
  rw [List.all_eq_true] at hW
  have h := hW r (List.mem_range.mpr hr)
  unfold rowOk at h
  exact of_decide_eq_true h

/-- `emitRow` produces one cell per column width. -/
theorem emitRow_length (y : ℚ) (rh gap : ℕ) (ws : List ℕ) :
    ∀ x, (emitRow y rh gap x ws).length = ws.length := by
  induction ws with
  | nil => intro x; rfl
  | cons w rest ih =>
    intro x
    simp only [emitRow, List.length_cons, ih]

/-- `emitRows` succeeds and produces one cell per item when every row
passes the width check. -/
theorem emitRows_some (x0 : ℚ) (w g : ℕ) (rcs : List (ℕ × ℕ)) :
    ∀ y : ℚ, (∀ p ∈ rcs, 1 ≤ p.1 ∧ (p.1 : ℤ) ≤ availW w g p.1) →
      ∃ cells, emitRows x0 w g y rcs = some cells ∧
        cells.length = (rcs.map Prod.fst).sum := by
  induction rcs with
  | nil =>
    intro y _
    exact ⟨[], rfl, rfl⟩
  | cons p rest ih =>
    intro y h
    obtain ⟨c, rh⟩ := p
    obtain ⟨hc1, hcW⟩ := h (c, rh) (List.mem_cons_self _ _)
    obtain ⟨cells2, h2, hlen2⟩ := ih (y + rh + g) (fun q hq => h q (List.mem_cons_of_mem _ hq))
    refine ⟨emitRow y rh g x0 (distribute (availW w g c : ℚ) ((c : ℕ) : ℚ)) ++ cells2, ?_, ?_⟩
    · simp only [emitRows]
      rw [if_neg (not_lt.mpr hcW), h2]
    · rw [List.length_append, emitRow_length, distribute_length, hlen2]
      have hcnat : (max 1 ⌊((c : ℕ) : ℚ)⌋).toNat = c := by
        rw [Int.floor_natCast, max_eq_right (by exact_mod_cast hc1), Int.toNat_natCast]
      rw [hcnat]
      simp

/-- Whenever `tryBuildCellsFilled` succeeds it returns exactly the floored
requested count of cells (the final `cells.length === n` guard). -/
theorem tryBuildCellsFilled_length (rect : Rect) (count gap : ℚ) (cells : List Rect)
    (hc : tryBuildCellsFilled rect count gap = some cells) :
    cells.length = natFloor count := by
  simp only [tryBuildCellsFilled] at hc
  repeat' split at hc
  all_goals simp_all

/-- Under the pixel-capacity condition `n ≤ w * h`, every row of the
candidate `rows = min n h` fits in the width at gap 0. -/
theorem rowCount_le_width (n w h r : ℕ) (hn : 1 ≤ n) (hw : 1 ≤ w) (hh : 1 ≤ h)
    (hcap : n ≤ w * h) : rowCount n (min n h) r ≤ w := by
  rcases Nat.le_total n h with hnh | hhn
  · rw [Nat.min_eq_left hnh, rowCount_eq, Nat.div_self (by omega), Nat.one_mul,
      Nat.sub_self]
    simp only [Nat.not_lt_zero, if_false]
    omega
  · rw [Nat.min_eq_right hhn, rowCount_eq]
    by_cases hr : r < n - n / h * h
    · rw [if_pos hr]
      have hmod : n - n / h * h = n % h := by
        have := Nat.div_add_mod n h
        rw [Nat.mul_comm (n / h) h]
        omega
      have hne : n ≠ w * h := by
        intro hcontra
        rw [hmod, hcontra, Nat.mul_mod_left] at hr
        omega
      have hlt : n < w * h := lt_of_le_of_ne hcap hne
      have hdiv : n / h < w := by
        apply (Nat.div_lt_iff_lt_mul (by omega)).mpr
        calc n < w * h := hlt
          _ = h * w := Nat.mul_comm w h
          _ ≤ w * h := le_of_eq (Nat.mul_comm h w)
      omega
    · rw [if_neg hr]
      have hdiv : n / h < w + 1 := by
        apply (Nat.div_lt_iff_lt_mul (by omega)).mpr
        have hstep : w * h < (w + 1) * h :=
          mul_lt_mul_of_pos_right (by omega) (by omega)
        calc n ≤ w * h := hcap
          _ < (w + 1) * h := hstep
      omega

/-- Under the pixel-capacity condition, `rows = min n h` is a feasible
candidate at gap 0. -/
theorem feasible_min_gap0 (n w h : ℕ) (hn : 1 ≤ n) (hw : 1 ≤ w) (hh : 1 ≤ h)
    (hcap : n ≤ w * h) : feasibleRows n w h 0 (min n h) := by
  refine ⟨by omega, le_refl _, ?_, ?_⟩
  · unfold availH
    have : min n h ≤ h := min_le_right n h
    push_cast
    omega
  · unfold widthsOk
    rw [List.all_eq_true]
    intro r hr
    unfold rowOk
    apply decide_eq_true
    unfold availW
    have h1 := rowCount_le_width n w h r hn hw hh hcap
    have h2 : 1 ≤ rowCount n (min n h) r :=
      rowCount_ge_one n (min n h) r (by omega) (min_le_left n h)
    push_cast
    omega

theorem natFloor_zero : natFloor 0 = 0 := by
  simp [natFloor]

/-- With `n ≥ 1`, positive rounded dimensions and the pixel capacity
`n ≤ w * h`, the zero-gap attempt of `tryBuildCellsFilled` succeeds with
exactly `n` cells. -/
theorem tryBuild_gap0_succeeds (rect : Rect) (n : ℕ) (hn : 1 ≤ n)
    (hw : 1 ≤ jsRound rect.width) (hh : 1 ≤ jsRound rect.height)
    (hcap : (n : ℤ) ≤ jsRound rect.width * jsRound rect.height) :
    ∃ cells, tryBuildCellsFilled rect ((n : ℕ) : ℚ) 0 = some cells ∧ cells.length = n := by
  set W : ℤ := jsRound rect.width with hW
  set H : ℤ := jsRound rect.height with hH
  set w : ℕ := W.toNat with hwdef
  set h : ℕ := H.toNat with hhdef
  have hw1 : 1 ≤ w := by omega
  have hh1 : 1 ≤ h := by omega
  have hwz : (w : ℤ) = W := Int.toNat_of_nonneg (by omega)
  have hhz : (h : ℤ) = H := Int.toNat_of_nonneg (by omega)
  have hcapn : n ≤ w * h := by
    have : ((w * h : ℕ) : ℤ) = W * H := by
      push_cast
      rw [hwz, hhz]
    omega
  have hfeas := feasible_min_gap0 n w h hn hw1 hh1 hcapn
  obtain ⟨rows, hrows, hrows1⟩ :=
    computeBestRowsNoWaste_total n w h 0 hn hw1 hh1 (min n h) hfeas
  obtain ⟨hfr, -, -⟩ := computeBestRowsNoWaste_spec n w h 0 hn hw1 hh1 rows hrows
  have hrn : rows ≤ n := le_trans hfr.2.1 (min_le_left n h)
  have hcw : ((w : ℕ) : ℚ) = ((W : ℤ) : ℚ) := by
    exact_mod_cast congrArg (fun z => ((z : ℤ) : ℚ)) hwz
  have hch : ((h : ℕ) : ℚ) = ((H : ℤ) : ℚ) := by
    exact_mod_cast congrArg (fun z => ((z : ℤ) : ℚ)) hhz
  rw [hcw, hch] at hrows
  -- the zipped (rowCount, rowHeight) pairs the emission loop walks
  have hrcs : ∀ p ∈ (((List.range rows).map (rowCount n rows)).zip
      (distribute ((availH h 0 rows : ℤ) : ℚ) ((rows : ℕ) : ℚ))),
      1 ≤ p.1 ∧ (p.1 : ℤ) ≤ availW w 0 p.1 := by
    intro p hp
    have hp1 := (List.of_mem_zip hp).1
    obtain ⟨r, hr, hpr⟩ := List.mem_map.mp hp1
    rw [List.mem_range] at hr
    rw [← hpr]
    exact ⟨rowCount_ge_one n rows r (by omega) hrn, widthsOk_mem n w 0 rows r hfr.2.2.2 hr⟩
  obtain ⟨cells, hemit, hlen⟩ := emitRows_some ((jsRound rect.x : ℤ) : ℚ) w 0
    (((List.range rows).map (rowCount n rows)).zip
      (distribute ((availH h 0 rows : ℤ) : ℚ) ((rows : ℕ) : ℚ)))
    ((jsRound rect.y : ℤ) : ℚ) hrcs
  have hzipfst : (((List.range rows).map (rowCount n rows)).zip
      (distribute ((availH h 0 rows : ℤ) : ℚ) ((rows : ℕ) : ℚ))).map Prod.fst
      = (List.range rows).map (rowCount n rows) := by
    apply List.map_fst_zip
    rw [distribute_length, List.length_map, List.length_range, Int.floor_natCast,
      max_eq_right (by exact_mod_cast hrows1), Int.toNat_natCast]
  have hlen' : cells.length = n := by
    rw [hlen, hzipfst, sum_rowCounts n rows (by omega)]
  refine ⟨cells, ?_, hlen'⟩
  simp only [tryBuildCellsFilled, natFloor_natCast, natFloor_zero]
  rw [if_neg (by omega : ¬ n = 0)]
  rw [if_neg (by push_neg; exact ⟨by omega, by omega⟩ : ¬ (W ≤ 0 ∨ H ≤ 0))]
  rw [hrows]
  dsimp only
  rw [if_neg (by omega : ¬ rows = 0)]
  rw [if_neg (by
    have : 1 ≤ n / rows := (Nat.one_le_div_iff (by omega)).mpr hrn
    omega : ¬ n / rows = 0)]
  rw [if_neg (not_lt.mpr hfr.2.2.1)]
  rw [hemit]
  dsimp only
  rw [if_pos hlen']

/-- Whatever attempt of the retry loop succeeds, its cells come from some
`tryBuildCellsFilled` call (whose gap descends from the requested one). -/
theorem buildAttempt_some (rect : Rect) (n : ℕ) :
    ∀ k g cells, buildAttempt rect n g k = some cells →
      ∃ gcur : ℕ, tryBuildCellsFilled rect ((n : ℕ) : ℚ) ((gcur : ℕ) : ℚ) = some cells := by
  intro k
  induction k with
  | zero =>
    intro g cells hc
    exact absurd hc (by simp [buildAttempt])
  | succ k ih =>
    intro g cells hc
    rw [buildAttempt] at hc
    cases ht : tryBuildCellsFilled rect ((n : ℕ) : ℚ) ((g : ℕ) : ℚ) with
    | some cells0 =>
      rw [ht] at hc
      exact ⟨g, ht.trans hc⟩
    | none =>
      rw [ht] at hc
      exact ih (g / 2) cells hc

/-- The packer returns exactly the requested number of cells whenever the
request is positive, the rounded rectangle has positive dimensions, and the
count does not exceed the rectangle's pixel capacity `w * h` — in the worst
case through the final zero-gap attempt. -/
theorem buildCellsFilled_length_eq (rect : Rect) (count gap : ℚ)
    (hn : 1 ≤ natFloor count)
    (hw : 1 ≤ jsRound rect.width) (hh : 1 ≤ jsRound rect.height)
    (hcap : ((natFloor count : ℕ) : ℤ) ≤ jsRound rect.width * jsRound rect.height) :
    (buildCellsFilled rect count gap).length = natFloor count := by
  simp only [buildCellsFilled]
  rw [if_neg (by omega : ¬ natFloor count = 0)]
  cases hb : buildAttempt rect (natFloor count) (natFloor gap) 4 with
  | some cells =>
    obtain ⟨gcur, hg⟩ := buildAttempt_some rect (natFloor count) 4 (natFloor gap) cells hb
    have hlen := tryBuildCellsFilled_length rect ((natFloor count : ℕ) : ℚ)
      ((gcur : ℕ) : ℚ) cells hg
    rw [natFloor_natCast] at hlen
    exact hlen
  | none =>
    obtain ⟨cells, hc, hlen⟩ := tryBuild_gap0_succeeds rect (natFloor count) hn hw hh hcap
    rw [hc]
    simpa using hlen

/-- With a non-positive floored count the packer returns no cells. -/
theorem buildCellsFilled_zero (rect : Rect) (count gap : ℚ)
    (hn : natFloor count = 0) : buildCellsFilled rect count gap = [] := by
  simp [buildCellsFilled, hn]

/-- When the rounded rectangle has a non-positive dimension, every attempt
fails and the packer returns no cells. -/
theorem buildCellsFilled_degenerate (rect : Rect) (count gap : ℚ)
    (hdim : jsRound rect.width ≤ 0 ∨ jsRound rect.height ≤ 0) :
    buildCellsFilled rect count gap = [] := by
  have htry : ∀ c g : ℚ, ¬ natFloor c = 0 → tryBuildCellsFilled rect c g = none := by
    intro c g hc
    simp only [tryBuildCellsFilled]
    rw [if_neg hc, if_pos hdim]
  by_cases hn : natFloor count = 0
  · exact buildCellsFilled_zero rect count gap hn
  · have hattempt : ∀ k g, buildAttempt rect (natFloor count) g k = none := by
      intro k
      induction k with
      | zero => intro g; rfl
      | succ k ih =>
        intro g
        rw [buildAttempt]
        rw [htry ((natFloor count : ℕ) : ℚ) ((g : ℕ) : ℚ) (by rw [natFloor_natCast]; exact hn)]
        exact ih (g / 2)
    simp only [buildCellsFilled]
    rw [if_neg hn, hattempt 4 (natFloor gap),
      htry ((natFloor count : ℕ) : ℚ) 0 (by rw [natFloor_natCast]; exact hn)]
    rfl

/-- JS truncation of an integral value is that value. -/
theorem jsTrunc_intCast (k : ℤ) : jsTrunc ((k : ℤ) : ℚ) = k := by
  unfold jsTrunc
  by_cases h : (0 : ℚ) ≤ (k : ℚ)
  · rw [if_pos h, Int.floor_intCast]
  · rw [if_neg h, Int.ceil_intCast]

/-- The JS remainder `k % 2` of a non-negative integral value matches the
mathematical remainder. -/
theorem jsRem_two_intCast (k : ℤ) (hk : 0 ≤ k) :
    jsRem ((k : ℤ) : ℚ) 2 = ((k % 2 : ℤ) : ℚ) := by
  unfold jsRem jsTrunc
  have hpos : (0 : ℚ) ≤ (k : ℚ) / 2 := by positivity
  rw [if_pos hpos]
  have hdiv : ((k : ℚ) / 2) = ((k : ℚ) / ((2 : ℕ) : ℚ)) := by norm_num
  have hfl : ⌊(k : ℚ) / 2⌋ = k / 2 := by
    rw [hdiv, Rat.floor_intCast_div_natCast]
    norm_num
  rw [hfl]
  have hmod : k % 2 = k - 2 * (k / 2) := by omega
  rw [hmod]
  push_cast
  ring

/-- `mainSizeRaw` of an integral size `s ≥ 64` is the integer clamp of the
rounded main size; the ratio clamp at 0.95 keeps it at most `s - 2`. -/
theorem mainSizeRaw_int (s : ℤ) (hs : 64 ≤ s) (ratio : ℚ) :
    ∃ m1 : ℤ, 1 ≤ m1 ∧ m1 ≤ s - 2 ∧ mainSizeRaw ((s : ℤ) : ℚ) ratio = ((m1 : ℤ) : ℚ) := by
  have hratio_hi : safeRatioOf ratio ≤ 95/100 := min_le_left _ _
  have hratio_lo : (5/100 : ℚ) ≤ safeRatioOf ratio :=
    le_min (by norm_num) (le_max_left _ _)
  have hsq : (64 : ℚ) ≤ (s : ℚ) := by exact_mod_cast hs
  have hx : (s : ℚ) * safeRatioOf ratio ≤ (s : ℚ) * (95/100) :=
    mul_le_mul_of_nonneg_left hratio_hi (by linarith)
  have hm0 : jsRound ((s : ℚ) * safeRatioOf ratio) ≤ s - 2 := by
    unfold jsRound
    rw [round_eq]
    have hlt : (s : ℚ) * safeRatioOf ratio + 1/2 < ((s - 1 : ℤ) : ℚ) := by
      push_cast
      linarith
    have := Int.floor_lt.mpr hlt
    omega
  refine ⟨min s (max 1 (jsRound ((s : ℚ) * safeRatioOf ratio))), ?_, ?_, ?_⟩
  · exact le_min (by omega) (le_max_left _ _)
  · have h1 : max 1 (jsRound ((s : ℚ) * safeRatioOf ratio)) ≤ s - 2 :=
      max_le (by omega) hm0
    exact le_trans (min_le_right _ _) h1
  · unfold mainSizeRaw clamp
    rw [Int.cast_min, Int.cast_max, Int.cast_one]

/-- For a canvas size of at least 64, the parity nudge of `computeRegions`
always lands on an integer main size `m ∈ [1, s]` with `s - m` even. -/
theorem mainSizeOf_int (s : ℤ) (hs : 64 ≤ s) (ratio : ℚ) :
    ∃ m : ℤ, 1 ≤ m ∧ m ≤ s - 2 ∧ (s - m) % 2 = 0 ∧
      mainSizeOf ((s : ℤ) : ℚ) ratio = ((m : ℤ) : ℚ) := by
  obtain ⟨m1, hm1, hm1s, hraw⟩ := mainSizeRaw_int s hs ratio
  have hsub : (s : ℚ) - (m1 : ℚ) = ((s - m1 : ℤ) : ℚ) := by push_cast; ring
  have hrem1 : jsRem ((s : ℚ) - (m1 : ℚ)) 2 = (((s - m1) % 2 : ℤ) : ℚ) := by
    rw [hsub]
    exact jsRem_two_intCast (s - m1) (by omega)
  unfold mainSizeOf
  rw [hraw]
  by_cases hpar : (s - m1) % 2 = 0
  · rw [if_neg (by rw [hrem1, hpar]; simp)]
    exact ⟨m1, hm1, hm1s, hpar, rfl⟩
  · rw [if_pos (by rw [hrem1]; exact_mod_cast hpar)]
    have hsubd : (s : ℚ) - ((m1 : ℚ) - 1) = ((s - (m1 - 1) : ℤ) : ℚ) := by push_cast; ring
    have hremd : jsRem ((s : ℚ) - ((m1 : ℚ) - 1)) 2 = (((s - (m1 - 1)) % 2 : ℤ) : ℚ) := by
      rw [hsubd]
      exact jsRem_two_intCast _ (by omega)
    have hpard : (s - (m1 - 1)) % 2 = 0 := by omega
    by_cases hdown : 2 ≤ m1
    · rw [if_pos ⟨by exact_mod_cast (by omega : (1:ℤ) ≤ m1 - 1), by
        rw [hremd, hpard]; simp⟩]
      exact ⟨m1 - 1, by omega, by omega, by omega, by push_cast; ring⟩
    · have hm1one : m1 = 1 := by omega
      rw [if_neg (by
        intro hcontra
        have h1 := hcontra.1
        rw [hm1one] at h1
        norm_num at h1)]
      have hsubu : (s : ℚ) - ((m1 : ℚ) + 1) = ((s - (m1 + 1) : ℤ) : ℚ) := by push_cast; ring
      have hremu : jsRem ((s : ℚ) - ((m1 : ℚ) + 1)) 2 = (((s - (m1 + 1)) % 2 : ℤ) : ℚ) := by
        rw [hsubu]
        exact jsRem_two_intCast _ (by omega)
      have hparu : (s - (m1 + 1)) % 2 = 0 := by omega
      rw [if_pos ⟨by
        rw [show ((m1 : ℚ) + 1) = ((m1 + 1 : ℤ) : ℚ) by push_cast; ring]
        exact_mod_cast (by omega : m1 + 1 ≤ s), by rw [hremu, hparu]; simp⟩]
      exact ⟨m1 + 1, by omega, by omega, by omega, by push_cast; ring⟩

/-- The master geometry of `computeRegions` at an integral size `s ≥ 64`:
the adjusted main size is a natural `m ≥ 1`, the ring thickness a natural
`t` with `m + 2t = s`, and the main rect plus the four regions have the
explicit integral coordinates below. -/
theorem computeRegions_int (s : ℤ) (hs : 64 ≤ s) (ratio : ℚ) :
    ∃ m t : ℕ, 1 ≤ m ∧ 1 ≤ t ∧ (m : ℤ) + 2 * (t : ℤ) = s ∧
      computeRegions ((s : ℤ) : ℚ) ratio =
        (⟨((t : ℕ) : ℚ), ((t : ℕ) : ℚ), ((m : ℕ) : ℚ), ((m : ℕ) : ℚ)⟩,
         [⟨.top, ⟨0, 0, ((s : ℤ) : ℚ), ((t : ℕ) : ℚ)⟩, ((s : ℤ) : ℚ) * ((t : ℕ) : ℚ)⟩,
          ⟨.right, ⟨((t : ℕ) : ℚ) + ((m : ℕ) : ℚ), ((t : ℕ) : ℚ), ((t : ℕ) : ℚ),
            ((m : ℕ) : ℚ)⟩, ((t : ℕ) : ℚ) * ((m : ℕ) : ℚ)⟩,
          ⟨.bottom, ⟨0, ((t : ℕ) : ℚ) + ((m : ℕ) : ℚ), ((s : ℤ) : ℚ), ((t : ℕ) : ℚ)⟩,
            ((s : ℤ) : ℚ) * ((t : ℕ) : ℚ)⟩,
          ⟨.left, ⟨0, ((t : ℕ) : ℚ), ((t : ℕ) : ℚ), ((m : ℕ) : ℚ)⟩,
            ((t : ℕ) : ℚ) * ((m : ℕ) : ℚ)⟩]) := by
  obtain ⟨m, hm1, hms, hpar, hmain⟩ := mainSizeOf_int s hs ratio
  refine ⟨m.toNat, ((s - m) / 2).toNat, by omega, by omega, by omega, ?_⟩
  have hmq : ((m.toNat : ℕ) : ℚ) = ((m : ℤ) : ℚ) := by
    exact_mod_cast congrArg (fun z => ((z : ℤ) : ℚ)) (Int.toNat_of_nonneg (by omega : (0:ℤ) ≤ m))
  have htz : ((((s - m) / 2).toNat : ℕ) : ℤ) = (s - m) / 2 :=
    Int.toNat_of_nonneg (by omega)
  have htq : ((((s - m) / 2).toNat : ℕ) : ℚ) = (((s - m) / 2 : ℤ) : ℚ) := by
    exact_mod_cast congrArg (fun z => ((z : ℤ) : ℚ)) htz
  have hhalf : (((s - m) / 2 : ℤ) : ℚ) = ((s : ℚ) - (m : ℚ)) / 2 := by
    set k : ℤ := (s - m) / 2 with hk
    have h2 : s - m = 2 * k := by omega
    rw [show ((s : ℚ) - (m : ℚ)) = ((s - m : ℤ) : ℚ) by push_cast; ring, h2]
    push_cast
    ring
  have hringT : ringTOf ((s : ℤ) : ℚ) ratio = ((((s - m) / 2).toNat : ℕ) : ℚ) := by
    unfold ringTOf
    rw [hmain, htq, hhalf]
    apply max_eq_right
    have : (0 : ℚ) ≤ ((s : ℚ) - (m : ℚ)) := by
      rw [show ((s : ℚ) - (m : ℚ)) = ((s - m : ℤ) : ℚ) by push_cast; ring]
      exact_mod_cast (by omega : (0 : ℤ) ≤ s - m)
    linarith
  unfold computeRegions
  rw [hmain, hringT, hmq, htq]

/-- A rational that is (exactly) a non-negative integer. -/
def isNatQ (q : ℚ) : Prop := ∃ n : ℕ, q = ((n : ℕ) : ℚ)

/-- A rectangle whose four coordinates are non-negative integers. -/
def isNatRect (r : Rect) : Prop :=
  isNatQ r.x ∧ isNatQ r.y ∧ isNatQ r.width ∧ isNatQ r.height

theorem isNatQ_natCast (n : ℕ) : isNatQ ((n : ℕ) : ℚ) := ⟨n, rfl⟩

theorem isNatQ_zero : isNatQ (0 : ℚ) := ⟨0, by norm_num⟩

theorem isNatQ_add (a b : ℚ) (ha : isNatQ a) (hb : isNatQ b) : isNatQ (a + b) := by
  obtain ⟨x, hx⟩ := ha
  obtain ⟨y, hy⟩ := hb
  exact ⟨x + y, by rw [hx, hy]; push_cast; ring⟩

/-- The claim C9: at an integral `size ≥ 64` the parity nudge makes
`size - mainSize` even, the ring thickness `t = (size - mainSize)/2` is a
non-negative integer, and every coordinate of the main rect and of the four
region rects is a non-negative integer. -/
theorem computeRegions_coords_natural (s : ℤ) (hs : 64 ≤ s) (ratio : ℚ) :
    ∃ m t : ℕ, 1 ≤ m ∧ (m : ℤ) + 2 * (t : ℤ) = s ∧ (s - (m : ℤ)) % 2 = 0 ∧
      (computeRegions ((s : ℤ) : ℚ) ratio).1 =
        ⟨((t : ℕ) : ℚ), ((t : ℕ) : ℚ), ((m : ℕ) : ℚ), ((m : ℕ) : ℚ)⟩ ∧
      isNatRect (computeRegions ((s : ℤ) : ℚ) ratio).1 ∧
      List.Forall (fun reg => isNatRect reg.rect) (computeRegions ((s : ℤ) : ℚ) ratio).2 := by
  obtain ⟨m, t, hm1, ht1, hsum, heq⟩ := computeRegions_int s hs ratio
  have hsq : ((s : ℤ) : ℚ) = ((s.toNat : ℕ) : ℚ) := by
    exact_mod_cast congrArg (fun z => ((z : ℤ) : ℚ))
      (Int.toNat_of_nonneg (by omega : (0:ℤ) ≤ s)).symm
  refine ⟨m, t, hm1, hsum, by omega, by rw [heq], ?_, ?_⟩
  · rw [heq]
    exact ⟨isNatQ_natCast t, isNatQ_natCast t, isNatQ_natCast m, isNatQ_natCast m⟩
  · rw [heq]
    simp only [List.Forall]
    refine ⟨⟨isNatQ_zero, isNatQ_zero, hsq ▸ isNatQ_natCast s.toNat, isNatQ_natCast t⟩,
      ⟨isNatQ_add _ _ (isNatQ_natCast t) (isNatQ_natCast m), isNatQ_natCast t,
        isNatQ_natCast t, isNatQ_natCast m⟩,
      ⟨isNatQ_zero, isNatQ_add _ _ (isNatQ_natCast t) (isNatQ_natCast m),
        hsq ▸ isNatQ_natCast s.toNat, isNatQ_natCast t⟩,
      ⟨isNatQ_zero, isNatQ_natCast t, isNatQ_natCast t, isNatQ_natCast m⟩⟩

/-- Witness for C9 at the concrete size 64 with ratio 1/2. -/
theorem computeRegions_coords_natural_witness :
    ((64 : ℤ) ≤ 64) ∧
    (∃ m t : ℕ, 1 ≤ m ∧ (m : ℤ) + 2 * (t : ℤ) = 64 ∧ ((64 : ℤ) - (m : ℤ)) % 2 = 0 ∧
      (computeRegions (((64 : ℤ) : ℤ) : ℚ) (1/2)).1 =
        ⟨((t : ℕ) : ℚ), ((t : ℕ) : ℚ), ((m : ℕ) : ℚ), ((m : ℕ) : ℚ)⟩ ∧
      isNatRect (computeRegions (((64 : ℤ) : ℤ) : ℚ) (1/2)).1 ∧
      List.Forall (fun reg => isNatRect reg.rect) (computeRegions (((64 : ℤ) : ℤ) : ℚ) (1/2)).2) :=
  ⟨by norm_num, computeRegions_coords_natural 64 (by norm_num) (1/2)⟩

/-- The claim C3, amended by the pixel-capacity precondition: the packer
returns the empty list when the floored count is 0 or the rounded rectangle
has a non-positive dimension; and whenever the count is positive, both
rounded dimensions are positive and the count is at most the pixel capacity
`w * h`, the fallback chain (worst case `gap = 0`) returns exactly `n`
cells.  (Without the capacity bound the success half is false — see the
counterexample of a 1×1 rectangle with `n = 2`.) -/
theorem buildCellsFilled_spec (rect : Rect) (count gap : ℚ)
    (hn : 1 ≤ natFloor count)
    (hw : 1 ≤ jsRound rect.width) (hh : 1 ≤ jsRound rect.height)
    (hcap : ((natFloor count : ℕ) : ℤ) ≤ jsRound rect.width * jsRound rect.height) :
    (buildCellsFilled rect count gap).length = natFloor count ∧
    (∀ c g : ℚ, natFloor c = 0 → buildCellsFilled rect c g = []) ∧
    (∀ (other : Rect) (c g : ℚ), jsRound other.width ≤ 0 ∨ jsRound other.height ≤ 0 →
      buildCellsFilled other c g = []) :=
  ⟨buildCellsFilled_length_eq rect count gap hn hw hh hcap,
   fun c g hc => buildCellsFilled_zero rect c g hc,
   fun other c g hd => buildCellsFilled_degenerate other c g hd⟩

/-- Witness for C3 (amended) at a concrete input: 4 cells in a 100×25
strip at gap 0. -/
theorem buildCellsFilled_spec_witness :
    (1 ≤ natFloor 4 ∧ 1 ≤ jsRound (Rect.mk 0 0 100 25).width ∧
      1 ≤ jsRound (Rect.mk 0 0 100 25).height ∧
      ((natFloor 4 : ℕ) : ℤ) ≤ jsRound (Rect.mk 0 0 100 25).width *
        jsRound (Rect.mk 0 0 100 25).height) ∧
    ((buildCellsFilled (Rect.mk 0 0 100 25) 4 0).length = natFloor 4 ∧
    (∀ c g : ℚ, natFloor c = 0 → buildCellsFilled (Rect.mk 0 0 100 25) c g = []) ∧
    (∀ (other : Rect) (c g : ℚ), jsRound other.width ≤ 0 ∨ jsRound other.height ≤ 0 →
      buildCellsFilled other c g = [])) :=
  ⟨⟨by with_unfolding_all decide, by with_unfolding_all decide,
    by with_unfolding_all decide, by with_unfolding_all decide⟩,
   buildCellsFilled_spec (Rect.mk 0 0 100 25) 4 0
    (by with_unfolding_all decide) (by with_unfolding_all decide)
    (by with_unfolding_all decide) (by with_unfolding_all decide)⟩

theorem modifyAt_length (f : AllocEntry → AllocEntry) :
    ∀ (i : ℕ) (l : List AllocEntry), (modifyAt f i l).length = l.length := by
  intro i
  induction i with
  | zero =>
    intro l
    cases l <;> rfl
  | succ k ih =>
    intro l
    cases l with
    | nil => rfl
    | cons e t => simp [modifyAt, ih t]

theorem modifyAt_base_sum (i : ℕ) (l : List AllocEntry) (hi : i < l.length) :
    ((modifyAt incBase i l).map AllocEntry.base).sum = (l.map AllocEntry.base).sum + 1 := by
  induction i generalizing l with
  | zero =>
    cases l with
    | nil => simp at hi
    | cons e t =>
      simp [modifyAt, incBase]
      ring
  | succ k ih =>
    cases l with
    | nil => simp at hi
    | cons e t =>
      simp only [modifyAt, List.map_cons, List.sum_cons, ih t (by simpa using hi)]
      ring

theorem modifyAt_nonneg (i : ℕ) (l : List AllocEntry)
    (h : ∀ e ∈ l, 0 ≤ e.base) : ∀ e ∈ modifyAt incBase i l, 0 ≤ e.base := by
  induction i generalizing l with
  | zero =>
    cases l with
    | nil => intro e he; simp [modifyAt] at he
    | cons a t =>
      intro e he
      rcases List.mem_cons.mp he with h1 | h1
      · subst h1
        have := h a (List.mem_cons_self _ _)
        simp [incBase]
        omega
      · exact h e (List.mem_cons_of_mem _ h1)
  | succ k ih =>
    cases l with
    | nil => intro e he; simp [modifyAt] at he
    | cons a t =>
      intro e he
      rcases List.mem_cons.mp he with h1 | h1
      · rw [h1]
        exact h a (List.mem_cons_self _ _)
      · exact ih t (fun x hx => h x (List.mem_cons_of_mem _ hx)) e h1

theorem applyExtras_length (l : List AllocEntry) :
    ∀ k, (applyExtras l k).length = l.length := by
  intro k
  induction k with
  | zero => rfl
  | succ k ih => simp [applyExtras, modifyAt_length, ih]

theorem applyExtras_sum (l : List AllocEntry) (hne : l ≠ []) (k : ℕ) :
    ((applyExtras l k).map AllocEntry.base).sum = (l.map AllocEntry.base).sum + k := by
  induction k with
  | zero => simp [applyExtras]
  | succ k ih =>
    have hlen : 0 < l.length := List.length_pos.mpr hne
    have hidx : k % l.length < (applyExtras l k).length := by
      rw [applyExtras_length]
      exact Nat.mod_lt _ hlen
    simp only [applyExtras, modifyAt_base_sum _ _ hidx, ih]
    push_cast
    ring

theorem applyExtras_nonneg (l : List AllocEntry) (k : ℕ)
    (h : ∀ e ∈ l, 0 ≤ e.base) : ∀ e ∈ applyExtras l k, 0 ≤ e.base := by
  induction k with
  | zero => exact h
  | succ k ih => exact modifyAt_nonneg _ _ ih

theorem countFor_assign (c : Counts) (e : AllocEntry) (nm : RegionName) :
    countFor (assignCount c e) nm = if e.name = nm then e.base else countFor c nm := by
  cases hen : e.name <;> cases nm <;> simp [assignCount, countFor, hen]

/-- Each field of the folded record is either the initial field or the base
of some processed entry with that name. -/
theorem foldl_assign_countFor (nm : RegionName) :
    ∀ (l : List AllocEntry) (c : Counts),
      countFor (l.foldl assignCount c) nm = countFor c nm ∨
        ∃ e ∈ l, e.name = nm ∧ countFor (l.foldl assignCount c) nm = e.base := by
  intro l
  induction l with
  | nil =>
    intro c
    left
    rfl
  | cons e rest ih =>
    intro c
    rw [List.foldl_cons]
    rcases ih (assignCount c e) with h | ⟨e', he', hn', heq'⟩
    · rw [h, countFor_assign]
      by_cases hen : e.name = nm
      · right
        exact ⟨e, List.mem_cons_self _ _, hen, if_pos hen⟩
      · left
        exact if_neg hen
    · right
      exact ⟨e', List.mem_cons_of_mem _ he', hn', heq'⟩

/-- A record folded from non-negative bases over non-negative initial
fields keeps non-negative fields. -/
theorem foldl_assign_nonneg (l : List AllocEntry) (c : Counts)
    (hl : ∀ e ∈ l, 0 ≤ e.base) (hc : ∀ nm, 0 ≤ countFor c nm) :
    ∀ nm, 0 ≤ countFor (l.foldl assignCount c) nm := by
  intro nm
  rcases foldl_assign_countFor nm l c with h | ⟨e, he, -, heq⟩
  · rw [h]
    exact hc nm
  · rw [heq]
    exact hl e he

/-- The sum of the four folded fields never exceeds the initial sum plus
the sum of all processed bases (each field comes from a distinct entry). -/
theorem foldl_assign_total_le :
    ∀ (l : List AllocEntry) (c : Counts), (∀ e ∈ l, 0 ≤ e.base) →
      (∀ nm, 0 ≤ countFor c nm) →
      (l.foldl assignCount c).total ≤ c.total + (l.map AllocEntry.base).sum := by
  intro l
  induction l with
  | nil =>
    intro c _ _
    simp
  | cons e rest ih =>
    intro c hl hc
    rw [List.foldl_cons]
    have he0 : 0 ≤ e.base := hl e (List.mem_cons_self _ _)
    have hstep : (assignCount c e).total ≤ c.total + e.base := by
      have h0 := hc RegionName.top
      have h1 := hc RegionName.right
      have h2 := hc RegionName.bottom
      have h3 := hc RegionName.left
      simp only [countFor] at h0 h1 h2 h3
      cases hen : e.name <;> simp only [assignCount, hen, Counts.total] <;> omega
    have hcnext : ∀ nm, 0 ≤ countFor (assignCount c e) nm := by
      intro nm
      rw [countFor_assign]
      by_cases hen : e.name = nm
      · rw [if_pos hen]
        exact he0
      · rw [if_neg hen]
        exact hc nm
    have := ih (assignCount c e) (fun x hx => hl x (List.mem_cons_of_mem _ hx)) hcnext
    simp only [List.map_cons, List.sum_cons]
    omega

/-- Floors summed over a list never exceed the summed values. -/
theorem sum_map_floor_le (l : List ℚ) : (((l.map fun q => ⌊q⌋).sum : ℤ) : ℚ) ≤ l.sum := by
  induction l with
  | nil => simp
  | cons q rest ih =>
    simp only [List.map_cons, List.sum_cons, Int.cast_add]
    exact add_le_add (Int.floor_le q) ih

theorem allocRaw_base_nonneg (T : ℕ) (A : ℚ) (regions : List Region)
    (hA : ∀ r ∈ regions, 0 ≤ r.area) (hA0 : 0 ≤ A) :
    ∀ e ∈ allocRaw T A regions, 0 ≤ e.base := by
  intro e he
  obtain ⟨r, hr, hre⟩ := List.mem_map.mp he
  rw [← hre]
  exact Int.floor_nonneg.mpr (mul_nonneg (div_nonneg (hA r hr) hA0) (Nat.cast_nonneg T))

theorem allocRaw_map_base (T : ℕ) (A : ℚ) (regions : List Region) :
    (allocRaw T A regions).map AllocEntry.base =
      regions.map (fun r => ⌊(r.area / A) * (T : ℚ)⌋) := by
  unfold allocRaw
  rw [List.map_map]
  rfl

/-- With the ring area equal to the summed region areas, the floored bases
sum to at most the requested total (the exact shares sum to exactly it). -/
theorem allocRaw_sum_le (T : ℕ) (regions : List Region)
    (hApos : 0 < (regions.map Region.area).sum) :
    ((allocRaw T ((regions.map Region.area).sum) regions).map AllocEntry.base).sum
      ≤ (T : ℤ) := by
  set A := (regions.map Region.area).sum with hAdef
  have hA0 : A ≠ 0 := ne_of_gt hApos
  have hexact : (regions.map (fun r => (r.area / A) * (T : ℚ))).sum = (T : ℚ) := by
    have hfun : (fun r : Region => (r.area / A) * (T : ℚ)) =
        fun r : Region => r.area * ((T : ℚ) / A) := funext fun r => by ring
    rw [hfun, List.sum_map_mul_right, ← hAdef, mul_comm, div_mul_cancel₀ _ hA0]
  have hle := sum_map_floor_le (regions.map (fun r => (r.area / A) * (T : ℚ)))
  rw [hexact, List.map_map] at hle
  rw [allocRaw_map_base]
  exact_mod_cast hle

theorem allocOut_nonneg (T : ℕ) (A : ℚ) (regions : List Region)
    (hA : ∀ r ∈ regions, 0 ≤ r.area) (hA0 : 0 ≤ A) :
    ∀ nm, 0 ≤ countFor (allocOut T A regions) nm := by
  have hraw := allocRaw_base_nonneg T A regions hA hA0
  have hperm := List.perm_insertionSort
    (fun a b : AllocEntry => b.frac ≤ a.frac) (allocRaw T A regions)
  have hsorted : ∀ e ∈ List.insertionSort (fun a b : AllocEntry => b.frac ≤ a.frac)
      (allocRaw T A regions), 0 ≤ e.base :=
    fun e he => hraw e (hperm.mem_iff.mp he)
  have hbumped := applyExtras_nonneg _
    ((T : ℤ) - ((allocRaw T A regions).map AllocEntry.base).sum).toNat hsorted
  exact foldl_assign_nonneg _ _ hbumped (fun nm => by cases nm <;> simp [countFor])

theorem allocOut_total_le (T : ℕ) (regions : List Region)
    (hA : ∀ r ∈ regions, 0 ≤ r.area) (hApos : 0 < (regions.map Region.area).sum) :
    (allocOut T ((regions.map Region.area).sum) regions).total ≤ (T : ℤ) := by
  have hne : regions ≠ [] := by
    intro h
    rw [h] at hApos
    simp at hApos
  set A := (regions.map Region.area).sum with hAdef
  set raw := allocRaw T A regions with hrawdef
  set sorted := List.insertionSort (fun a b : AllocEntry => b.frac ≤ a.frac) raw
    with hsorteddef
  have hperm : sorted.Perm raw := List.perm_insertionSort _ raw
  have hsorted_ne : sorted ≠ [] := by
    intro h
    apply hne
    have hlen := hperm.length_eq
    rw [h, List.length_nil] at hlen
    have hrawlen : raw.length = regions.length := by
      rw [hrawdef]
      simp [allocRaw]
    exact List.length_eq_zero.mp (by omega)
  have hraw_nonneg : ∀ e ∈ raw, 0 ≤ e.base :=
    allocRaw_base_nonneg T A regions hA (le_of_lt hApos)
  have hsorted_nonneg : ∀ e ∈ sorted, 0 ≤ e.base :=
    fun e he => hraw_nonneg e (hperm.mem_iff.mp he)
  have hused_le : (raw.map AllocEntry.base).sum ≤ (T : ℤ) :=
    allocRaw_sum_le T regions hApos
  have hsorted_sum : (sorted.map AllocEntry.base).sum = (raw.map AllocEntry.base).sum :=
    (hperm.map AllocEntry.base).sum_eq
  have hbumped_sum : ((applyExtras sorted
      ((T : ℤ) - (raw.map AllocEntry.base).sum).toNat).map AllocEntry.base).sum = (T : ℤ) := by
    rw [applyExtras_sum sorted hsorted_ne, hsorted_sum]
    omega
  have hbumped_nonneg := applyExtras_nonneg sorted
    ((T : ℤ) - (raw.map AllocEntry.base).sum).toNat hsorted_nonneg
  have := foldl_assign_total_le _ ⟨0, 0, 0, 0⟩ hbumped_nonneg
    (fun nm => by cases nm <;> simp [countFor])
  rw [hbumped_sum] at this
  simp only [allocOut, ← hrawdef, ← hsorteddef]
  simpa [Counts.total] using this

/-- All four counts of `allocateCounts` are non-negative when the region
areas are (the defensive fixup can only add, since the pre-fixup sum never
exceeds the total). -/
theorem allocateCounts_nonneg (total : ℕ) (regions : List Region)
    (hA : ∀ r ∈ regions, 0 ≤ r.area) :
    ∀ nm, 0 ≤ countFor (allocateCounts ((total : ℕ) : ℚ) regions) nm := by
  intro nm
  simp only [allocateCounts, natFloor_natCast]
  by_cases hdeg : total = 0 ∨ (regions.map Region.area).sum ≤ 0
  · rw [if_pos hdeg]
    cases nm <;> simp [countFor]
  · rw [if_neg hdeg]
    push_neg at hdeg
    obtain ⟨-, hpos⟩ := hdeg
    have h1 := allocOut_nonneg total ((regions.map Region.area).sum) regions hA
      (le_of_lt hpos)
    have h2 := allocOut_total_le total regions hA hpos
    by_cases hfix : (allocOut total ((regions.map Region.area).sum) regions).total
        ≠ ((total : ℕ) : ℤ)
    · rw [if_pos hfix]
      have htop := h1 RegionName.top
      cases nm <;> simp only [countFor] at htop h2 ⊢ <;> first
        | omega
        | exact h1 RegionName.right
        | exact h1 RegionName.bottom
        | exact h1 RegionName.left
    · rw [if_neg hfix]
      exact h1 nm

theorem jsRound_natCast (n : ℕ) : jsRound ((n : ℕ) : ℚ) = n := by
  simp [jsRound]

theorem jsRound_intCast (k : ℤ) : jsRound ((k : ℤ) : ℚ) = k := by
  simp [jsRound]

/-- A region receives exactly its allocated count of cells when the count
is within `[0, capacity]` and the region's rounded dimensions are positive. -/
theorem build_length_toNat (rect : Rect) (c : ℤ) (gap : ℚ) (hc : 0 ≤ c)
    (hW : 1 ≤ jsRound rect.width) (hH : 1 ≤ jsRound rect.height)
    (hcap : c ≤ jsRound rect.width * jsRound rect.height) :
    (buildCellsFilled rect ((c : ℤ) : ℚ) gap).length = c.toNat := by
  by_cases h0 : c = 0
  · subst h0
    rw [buildCellsFilled_zero rect _ gap (by rw [natFloor_intCast]; rfl)]
    rfl
  · have h1 : 1 ≤ natFloor ((c : ℤ) : ℚ) := by
      rw [natFloor_intCast]
      omega
    have hlen := buildCellsFilled_length_eq rect ((c : ℤ) : ℚ) gap h1 hW hH (by
      rw [natFloor_intCast]
      omega)
    rw [hlen, natFloor_intCast]

/-- The claim C1, amended by the per-region capacity precondition: the
layout has exactly `othersCount` ring cells whenever every region's
allocated count is at most that region's pixel capacity
(`count ≤ rounded width * rounded height`).  Without the precondition the
claim fails — see the counterexample, where every region is over-allocated
and all images are silently dropped. -/
theorem computeCollageLayout_ringCells_length (options : CollageLayoutOptions)
    (hcap : ∀ region ∈ layoutRegions options,
      countFor (layoutCounts options) region.name ≤
        jsRound region.rect.width * jsRound region.rect.height) :
    (computeCollageLayout options).ringCells.length = natFloor options.othersCount := by
  have hs : (64 : ℤ) ≤ layoutSize options := le_max_left _ _
  obtain ⟨m, t, hm1, ht1, hsum, heq⟩ :=
    computeRegions_int (layoutSize options) hs options.mainRatio
  have hregions : layoutRegions options =
      [⟨.top, ⟨0, 0, ((layoutSize options : ℤ) : ℚ), ((t : ℕ) : ℚ)⟩,
        ((layoutSize options : ℤ) : ℚ) * ((t : ℕ) : ℚ)⟩,
       ⟨.right, ⟨((t : ℕ) : ℚ) + ((m : ℕ) : ℚ), ((t : ℕ) : ℚ), ((t : ℕ) : ℚ),
        ((m : ℕ) : ℚ)⟩, ((t : ℕ) : ℚ) * ((m : ℕ) : ℚ)⟩,
       ⟨.bottom, ⟨0, ((t : ℕ) : ℚ) + ((m : ℕ) : ℚ), ((layoutSize options : ℤ) : ℚ),
        ((t : ℕ) : ℚ)⟩, ((layoutSize options : ℤ) : ℚ) * ((t : ℕ) : ℚ)⟩,
       ⟨.left, ⟨0, ((t : ℕ) : ℚ), ((t : ℕ) : ℚ), ((m : ℕ) : ℚ)⟩,
        ((t : ℕ) : ℚ) * ((m : ℕ) : ℚ)⟩] := by
    unfold layoutRegions
    rw [heq]
  have hA : ∀ r ∈ layoutRegions options, 0 ≤ r.area := by
    rw [hregions]
    intro r hr
    have hsq : (0 : ℚ) ≤ ((layoutSize options : ℤ) : ℚ) := by
      exact_mod_cast (by omega : (0 : ℤ) ≤ layoutSize options)
    fin_cases hr <;>
      exact mul_nonneg (by first | exact hsq | positivity) (by positivity)
  have hApos : 0 < ((layoutRegions options).map Region.area).sum := by
    rw [hregions]
    simp only [List.map_cons, List.map_nil, List.sum_cons, List.sum_nil]
    have hsq : (64 : ℚ) ≤ ((layoutSize options : ℤ) : ℚ) := by exact_mod_cast hs
    have htq : (1 : ℚ) ≤ ((t : ℕ) : ℚ) := by exact_mod_cast ht1
    have hmq : (1 : ℚ) ≤ ((m : ℕ) : ℚ) := by exact_mod_cast hm1
    nlinarith
  have hnonneg := allocateCounts_nonneg (natFloor options.othersCount)
    (layoutRegions options) hA
  have hsum_eq := (allocateCounts_sum_eq (natFloor options.othersCount)
    (layoutRegions options) (by rw [hregions]; rfl)).1 hApos
  have hcounts : ∀ nm, 0 ≤ countFor (layoutCounts options) nm := hnonneg
  have htotal : (layoutCounts options).total = (natFloor options.othersCount : ℤ) :=
    hsum_eq
  -- the per-region cell counts
  have hbuild : ∀ region ∈ layoutRegions options,
      (buildCellsFilled region.rect
        ((countFor (layoutCounts options) region.name : ℤ) : ℚ)
        (layoutGap options)).length = (countFor (layoutCounts options) region.name).toNat := by
    intro region hreg
    have hcapr := hcap region hreg
    have hnn := hcounts region.name
    have hdim : 1 ≤ jsRound region.rect.width ∧ 1 ≤ jsRound region.rect.height := by
      rw [hregions] at hreg
      fin_cases hreg <;>
        constructor <;>
        simp only [jsRound_natCast, jsRound_intCast] <;>
        omega
    exact build_length_toNat region.rect _ (layoutGap options) hnn hdim.1 hdim.2 hcapr
  -- assemble: the flattened per-region lists
  have hmain : (computeCollageLayout options).ringCells =
      ((layoutRegions options).map (fun region =>
        buildCellsFilled region.rect
          ((countFor (layoutCounts options) region.name : ℤ) : ℚ)
          (layoutGap options))).flatten := rfl
  rw [hmain, List.length_flatten]
  rw [hregions]
  simp only [List.map_cons, List.map_nil, List.sum_cons, List.sum_nil]
  have h1 := hbuild _ (by rw [hregions]; exact .head _)
  have h2 := hbuild _ (by rw [hregions]; exact .tail _ (.head _))
  have h3 := hbuild _ (by rw [hregions]; exact .tail _ (.tail _ (.head _)))
  have h4 := hbuild _ (by rw [hregions]; exact .tail _ (.tail _ (.tail _ (.head _))))
  simp only at h1 h2 h3 h4
  rw [h1, h2, h3, h4]
  have ht := hcounts RegionName.top
  have hr := hcounts RegionName.right
  have hb := hcounts RegionName.bottom
  have hl := hcounts RegionName.left
  simp only [Counts.total, countFor] at htotal ht hr hb hl ⊢
  omega

set_option maxRecDepth 4000 in
/-- Witness for C1 (amended) at a concrete input: 12 images on a 100px
canvas with ratio 1/2 and no gap — every region's count fits its area. -/
theorem computeCollageLayout_ringCells_length_witness :
    (∀ region ∈ layoutRegions ⟨100, 1/2, 0, 12⟩,
      countFor (layoutCounts ⟨100, 1/2, 0, 12⟩) region.name ≤
        jsRound region.rect.width * jsRound region.rect.height) ∧
    (computeCollageLayout ⟨100, 1/2, 0, 12⟩).ringCells.length = natFloor 12 :=
  ⟨by with_unfolding_all decide,
   computeCollageLayout_ringCells_length ⟨100, 1/2, 0, 12⟩ (by with_unfolding_all decide)⟩

/-- The exponential-scale trick: `log (max x x⁻¹) = |log x|` on positives. -/
theorem log_max_inv (x : ℝ) (hx : 0 < x) : Real.log (max x x⁻¹) = |Real.log x| := by
  rcases le_or_lt 1 x with h1 | h1
  · have hinvle : x⁻¹ ≤ 1 := inv_le_one_of_one_le₀ h1
    rw [max_eq_left (le_trans hinvle h1), abs_of_nonneg (Real.log_nonneg h1)]
  · have hinv : 1 ≤ x⁻¹ := one_le_inv_iff₀.mpr ⟨hx, le_of_lt h1⟩
    rw [max_eq_right (le_trans (le_of_lt h1) hinv), Real.log_inv,
      abs_of_nonpos (Real.log_nonpos (le_of_lt hx) (le_of_lt h1))]

/-- Log of a list product of positives is the sum of logs. -/
theorem log_list_prod (l : List ℚ) (h : ∀ x ∈ l, 0 < x) :
    Real.log ((l.prod : ℚ) : ℝ) = (l.map (fun x => Real.log ((x : ℚ) : ℝ))).sum := by
  induction l with
  | nil => simp
  | cons a rest ih =>
    have ha := h a (List.mem_cons_self _ _)
    have hrest : ∀ x ∈ rest, 0 < x := fun x hx => h x (List.mem_cons_of_mem _ hx)
    have hprod : (0 : ℚ) < rest.prod := List.prod_pos hrest
    simp only [List.prod_cons, List.map_cons, List.sum_cons]
    rw [Rat.cast_mul,
      Real.log_mul (by exact_mod_cast ne_of_gt ha) (by exact_mod_cast ne_of_gt hprod),
      ih hrest]

/-- Under the loop's feasibility checks every row's aspect is positive and
the zero-height guard is never taken. -/
theorem aspect_pos (n w h g rows i : ℕ) (hfeas : feasibleRows n w h g rows)
    (hi : i < rows) :
    0 < aspect w h g rows (rowCount n rows i) ∧
      rowH h g rows ≠ 0 ∧
      aspect w h g rows (rowCount n rows i) =
        cellW w g (rowCount n rows i) / rowH h g rows := by
  obtain ⟨h1, hrange, hH, hW⟩ := hfeas
  have hrn : rows ≤ n := le_trans hrange (min_le_left _ _)
  have hc1 : 1 ≤ rowCount n rows i := rowCount_ge_one n rows i h1 hrn
  have hcW := widthsOk_mem n w g rows i hW hi
  have hrowH : 0 < rowH h g rows := by
    unfold rowH
    apply div_pos
    · exact_mod_cast lt_of_lt_of_le (by exact_mod_cast h1) hH
    · exact_mod_cast h1
  have hcellW : 0 < cellW w g (rowCount n rows i) := by
    unfold cellW
    apply div_pos
    · exact_mod_cast lt_of_lt_of_le (by exact_mod_cast hc1) hcW
    · exact_mod_cast hc1
  have hne : rowH h g rows ≠ 0 := ne_of_gt hrowH
  refine ⟨?_, hne, ?_⟩
  · unfold aspect
    rw [if_neg hne]
    exact div_pos hcellW hrowH
  · unfold aspect
    rw [if_neg hne]

/-- Each exponential-scale row factor of a feasible candidate is positive. -/
theorem rowFactor_pos (n w h g rows i : ℕ) (hfeas : feasibleRows n w h g rows)
    (hi : i < rows) : 0 < rowFactor n w h g rows i := by
  obtain ⟨ha, -, -⟩ := aspect_pos n w h g rows i hfeas hi
  unfold rowFactor
  exact pow_pos (lt_of_lt_of_le ha (le_max_left _ _)) _

/-- A feasible candidate's exponential-scale score is positive. -/
theorem scoreMul_pos (n w h g rows : ℕ) (hfeas : feasibleRows n w h g rows) :
    0 < scoreMul n w h g rows := by
  unfold scoreMul
  apply List.prod_pos
  intro a ha
  obtain ⟨i, hi, hia⟩ := List.mem_map.mp ha
  rw [List.mem_range] at hi
  rw [← hia]
  exact rowFactor_pos n w h g rows i hfeas hi

/-- The bridge: the source's additive log score of a feasible candidate is
the logarithm of the embedding's multiplicative score. -/
theorem scoreMul_log (n w h g rows : ℕ) (hfeas : feasibleRows n w h g rows) :
    ((List.range rows).map (fun i =>
      |Real.log (((cellW w g (rowCount n rows i) : ℚ) : ℝ) /
        ((rowH h g rows : ℚ) : ℝ))| * ((rowCount n rows i : ℕ) : ℝ))).sum
    = Real.log ((scoreMul n w h g rows : ℚ) : ℝ) := by
  unfold scoreMul
  rw [log_list_prod _ (by
    intro a ha
    obtain ⟨i, hi, hia⟩ := List.mem_map.mp ha
    rw [List.mem_range] at hi
    rw [← hia]
    exact rowFactor_pos n w h g rows i hfeas hi)]
  rw [List.map_map]
  apply congrArg List.sum
  apply List.map_congr_left
  intro i hi
  rw [List.mem_range] at hi
  obtain ⟨ha, hne, haeq⟩ := aspect_pos n w h g rows i hfeas hi
  simp only [Function.comp_apply]
  unfold rowFactor
  dsimp only
  rw [haeq]
  have hapos : (0 : ℝ) < ((cellW w g (rowCount n rows i) / rowH h g rows : ℚ) : ℝ) := by
    exact_mod_cast haeq ▸ ha
  push_cast
  push_cast at hapos
  rw [Real.log_pow, log_max_inv _ hapos]
  ring

/-- The claim C5: a returned row count is a candidate in `1 .. min n h`
passing the height and width feasibility checks, and it minimizes the
source's squareness score `Σ_rows |log(cellW/cellH)| * rowCount`, ties
going to the smallest (first-found) row count.  The embedding compares the
scores on the exponential scale; `scoreMul_log` transports minimality to
the source's logarithmic score. -/
theorem computeBestRowsNoWaste_minimizes (n w h g : ℕ)
    (hn : 1 ≤ n) (hw : 1 ≤ w) (hh : 1 ≤ h) (r : ℕ)
    (hr : computeBestRowsNoWaste ((n : ℕ) : ℚ) ((w : ℕ) : ℚ) ((h : ℕ) : ℚ)
      ((g : ℕ) : ℚ) = some r) :
    feasibleRows n w h g r ∧
    (∀ q, feasibleRows n w h g q →
      ((List.range r).map (fun i =>
        |Real.log (((cellW w g (rowCount n r i) : ℚ) : ℝ) / ((rowH h g r : ℚ) : ℝ))| *
          ((rowCount n r i : ℕ) : ℝ))).sum ≤
      ((List.range q).map (fun i =>
        |Real.log (((cellW w g (rowCount n q i) : ℚ) : ℝ) / ((rowH h g q : ℚ) : ℝ))| *
          ((rowCount n q i : ℕ) : ℝ))).sum) ∧
    (∀ q, feasibleRows n w h g q → q < r →
      ((List.range r).map (fun i =>
        |Real.log (((cellW w g (rowCount n r i) : ℚ) : ℝ) / ((rowH h g r : ℚ) : ℝ))| *
          ((rowCount n r i : ℕ) : ℝ))).sum <
      ((List.range q).map (fun i =>
        |Real.log (((cellW w g (rowCount n q i) : ℚ) : ℝ) / ((rowH h g q : ℚ) : ℝ))| *
          ((rowCount n q i : ℕ) : ℝ))).sum) := by
  obtain ⟨hf, hmin, hstrict⟩ := computeBestRowsNoWaste_spec n w h g hn hw hh r hr
  have hrpos : (0 : ℝ) < ((scoreMul n w h g r : ℚ) : ℝ) := by
    exact_mod_cast scoreMul_pos n w h g r hf
  refine ⟨hf, ?_, ?_⟩
  · intro q hq
    have hqpos : (0 : ℝ) < ((scoreMul n w h g q : ℚ) : ℝ) := by
      exact_mod_cast scoreMul_pos n w h g q hq
    rw [scoreMul_log n w h g r hf, scoreMul_log n w h g q hq]
    exact (Real.log_le_log_iff hrpos hqpos).mpr (by exact_mod_cast hmin q hq)
  · intro q hq hlt
    have hqpos : (0 : ℝ) < ((scoreMul n w h g q : ℚ) : ℝ) := by
      exact_mod_cast scoreMul_pos n w h g q hq
    rw [scoreMul_log n w h g r hf, scoreMul_log n w h g q hq]
    exact (Real.log_lt_log_iff hrpos hqpos).mpr (by exact_mod_cast hstrict q hq hlt)

/-- Witness for C5 at a concrete input: 4 items in a 100×25 strip at gap 0
pack best as a single row of perfect 25×25 squares. -/
theorem computeBestRowsNoWaste_minimizes_witness :
    (1 ≤ 4 ∧ 1 ≤ 100 ∧ 1 ≤ 25 ∧
      computeBestRowsNoWaste ((4 : ℕ) : ℚ) ((100 : ℕ) : ℚ) ((25 : ℕ) : ℚ)
        ((0 : ℕ) : ℚ) = some 1) ∧
    (feasibleRows 4 100 25 0 1 ∧
    (∀ q, feasibleRows 4 100 25 0 q →
      ((List.range 1).map (fun i =>
        |Real.log (((cellW 100 0 (rowCount 4 1 i) : ℚ) : ℝ) / ((rowH 25 0 1 : ℚ) : ℝ))| *
          ((rowCount 4 1 i : ℕ) : ℝ))).sum ≤
      ((List.range q).map (fun i =>
        |Real.log (((cellW 100 0 (rowCount 4 q i) : ℚ) : ℝ) / ((rowH 25 0 q : ℚ) : ℝ))| *
          ((rowCount 4 q i : ℕ) : ℝ))).sum) ∧
    (∀ q, feasibleRows 4 100 25 0 q → q < 1 →
      ((List.range 1).map (fun i =>
        |Real.log (((cellW 100 0 (rowCount 4 1 i) : ℚ) : ℝ) / ((rowH 25 0 1 : ℚ) : ℝ))| *
          ((rowCount 4 1 i : ℕ) : ℝ))).sum <
      ((List.range q).map (fun i =>
        |Real.log (((cellW 100 0 (rowCount 4 q i) : ℚ) : ℝ) / ((rowH 25 0 q : ℚ) : ℝ))| *
          ((rowCount 4 q i : ℕ) : ℝ))).sum)) :=
  ⟨⟨by norm_num, by norm_num, by norm_num, by with_unfolding_all decide⟩,
   computeBestRowsNoWaste_minimizes 4 100 25 0 (by norm_num) (by norm_num) (by norm_num) 1
    (by with_unfolding_all decide)⟩

/-- `CollageImageItem` of collage.ts: an id plus an opaque file handle
(the browser `File`; its type is a parameter since its contents never
influence the layout). -/
structure CollageImageItem (File : Type) where
  id : String
  file : File
deriving DecidableEq

/-- The main-image selection of `renderCollageToCanvas`:
`images.find((i) => i.id === mainId) ?? images[0]`. -/
def findMain {F : Type} (images : List (CollageImageItem F)) (mainId : String) :
    Option (CollageImageItem F) :=
  (images.find? (fun i => i.id = mainId)).orElse (fun _ => images.head?)

/-- The pure image-to-cell plan of `renderCollageToCanvas` in `useMain`
mode with `shuffleOthers = false`: pick the main image, filter the others,
compute the layout for their count, and pair the others with the ring
cells in order while the main image gets `mainRect`.  `none` models the
thrown errors (no images, or too few ring cells for the others); the
decode/draw/progress steps are external effects that consume this plan in
order. -/
def renderAssignment {F : Type} (images : List (CollageImageItem F)) (mainId : String)
    (size mainRatio gap : ℚ) :
    Option ((CollageImageItem F × Rect) × List (CollageImageItem F × Rect)) :=
  match images with
  | [] => none
  | _ :: _ =>
    match findMain images mainId with
    | none => none
    | some main =>
      let others := images.filter (fun i => i.id ≠ main.id)
      let layout := computeCollageLayout ⟨size, mainRatio, gap, ((others.length : ℕ) : ℚ)⟩
      if others.length ≤ layout.ringCells.length then
        some ((main, layout.mainRect), others.zip layout.ringCells)
      else none

/-- The claim C10: when no image's id matches `mainId`, the first image is
silently used as the main image (assigned to `mainRect`) and the remaining
images are assigned to the ring cells in order — no error is raised by the
selection.  (Distinct ids reflect the app's invariant; the filter removes
exactly the fallback main image.) -/
theorem renderAssignment_fallback {F : Type} (img : CollageImageItem F)
    (rest : List (CollageImageItem F)) (mainId : String) (size mainRatio gap : ℚ)
    (hmiss : ∀ i ∈ img :: rest, ¬ i.id = mainId)
    (hnodup : ((img :: rest).map CollageImageItem.id).Nodup)
    (hfit : rest.length ≤ (computeCollageLayout
      ⟨size, mainRatio, gap, ((rest.length : ℕ) : ℚ)⟩).ringCells.length) :
    findMain (img :: rest) mainId = some img ∧
    (img :: rest).filter (fun i => i.id ≠ img.id) = rest ∧
    renderAssignment (img :: rest) mainId size mainRatio gap =
      some ((img, (computeCollageLayout
          ⟨size, mainRatio, gap, ((rest.length : ℕ) : ℚ)⟩).mainRect),
        rest.zip (computeCollageLayout
          ⟨size, mainRatio, gap, ((rest.length : ℕ) : ℚ)⟩).ringCells) := by
  have hfind : (img :: rest).find? (fun i => i.id = mainId) = none := by
    rw [List.find?_eq_none]
    intro i hi
    simpa using hmiss i hi
  have hmain : findMain (img :: rest) mainId = some img := by
    unfold findMain
    rw [hfind]
    rfl
  have hrest_ne : ∀ i ∈ rest, i.id ≠ img.id := by
    intro i hi heq
    rw [List.map_cons, List.nodup_cons] at hnodup
    exact hnodup.1 (heq ▸ List.mem_map_of_mem CollageImageItem.id hi)
  have hfilter : (img :: rest).filter (fun i => i.id ≠ img.id) = rest := by
    rw [List.filter_cons]
    rw [if_neg (by simp : ¬ (decide (img.id ≠ img.id) = true))]
    rw [List.filter_eq_self]
    intro i hi
    simpa using hrest_ne i hi
  refine ⟨hmain, hfilter, ?_⟩
  unfold renderAssignment
  rw [hmain]
  dsimp only
  rw [hfilter, if_pos hfit]

set_option maxRecDepth 4000 in
/-- Witness for C10 at a concrete input: three images, none matching the
requested main id. -/
theorem renderAssignment_fallback_witness :
    ((∀ i ∈ [CollageImageItem.mk "a" (), ⟨"b", ()⟩, ⟨"c", ()⟩], ¬ i.id = "zz") ∧
     (([CollageImageItem.mk "a" (), ⟨"b", ()⟩, ⟨"c", ()⟩].map CollageImageItem.id).Nodup) ∧
     ([(⟨"b", ()⟩ : CollageImageItem Unit), ⟨"c", ()⟩].length ≤ (computeCollageLayout
       ⟨100, 1/2, 0, (([(⟨"b", ()⟩ : CollageImageItem Unit), ⟨"c", ()⟩].length : ℕ) : ℚ)⟩).ringCells.length)) ∧
    (findMain [CollageImageItem.mk "a" (), ⟨"b", ()⟩, ⟨"c", ()⟩] "zz" = some ⟨"a", ()⟩ ∧
    ([CollageImageItem.mk "a" (), ⟨"b", ()⟩, ⟨"c", ()⟩].filter
      (fun i => i.id ≠ (CollageImageItem.mk "a" ()).id)) = [⟨"b", ()⟩, ⟨"c", ()⟩] ∧
    renderAssignment [CollageImageItem.mk "a" (), ⟨"b", ()⟩, ⟨"c", ()⟩] "zz" 100 (1/2) 0 =
      some ((⟨"a", ()⟩, (computeCollageLayout
          ⟨100, 1/2, 0, (([(⟨"b", ()⟩ : CollageImageItem Unit), ⟨"c", ()⟩].length : ℕ) : ℚ)⟩).mainRect),
        [(⟨"b", ()⟩ : CollageImageItem Unit), ⟨"c", ()⟩].zip (computeCollageLayout
          ⟨100, 1/2, 0, (([(⟨"b", ()⟩ : CollageImageItem Unit), ⟨"c", ()⟩].length : ℕ) : ℚ)⟩).ringCells)) :=
  ⟨⟨by decide, by decide, by with_unfolding_all decide⟩,
   renderAssignment_fallback (CollageImageItem.mk "a" ()) [⟨"b", ()⟩, ⟨"c", ()⟩] "zz" 100 (1/2) 0
    (by decide) (by decide) (by with_unfolding_all decide)⟩

/-- Two axis-aligned rectangles with zero intersection area: they are
separated along an axis. -/
def disjointRect (a b : Rect) : Prop :=
  a.x + a.width ≤ b.x ∨ b.x + b.width ≤ a.x ∨
    a.y + a.height ≤ b.y ∨ b.y + b.height ≤ a.y

/-- Containment of a rectangle in the axis-aligned box
`[X, X+W] × [Y, Y+H]`, with non-negative extents. -/
def inBox (X Y W H : ℚ) (r : Rect) : Prop :=
  X ≤ r.x ∧ Y ≤ r.y ∧ 0 ≤ r.width ∧ 0 ≤ r.height ∧
    r.x + r.width ≤ X + W ∧ r.y + r.height ≤ Y + H

/-- Rectangles inside disjoint boxes are disjoint. -/
theorem disjoint_of_inBox (a b : Rect) (X₁ Y₁ W₁ H₁ X₂ Y₂ W₂ H₂ : ℚ)
    (ha : inBox X₁ Y₁ W₁ H₁ a) (hb : inBox X₂ Y₂ W₂ H₂ b)
    (hsep : X₁ + W₁ ≤ X₂ ∨ X₂ + W₂ ≤ X₁ ∨ Y₁ + H₁ ≤ Y₂ ∨ Y₂ + H₂ ≤ Y₁) :
    disjointRect a b := by
  obtain ⟨hax, hay, -, -, haX, haY⟩ := ha
  obtain ⟨hbx, hby, -, -, hbX, hbY⟩ := hb
  rcases hsep with h | h | h | h
  · exact Or.inl (by linarith)
  · exact Or.inr (Or.inl (by linarith))
  · exact Or.inr (Or.inr (Or.inl (by linarith)))
  · exact Or.inr (Or.inr (Or.inr (by linarith)))

/-- The horizontal span of a row of column widths separated by `gap`. -/
def rowSpan (gap : ℕ) : List ℕ → ℚ
  | [] => 0
  | w :: ws => (w : ℚ) + (if ws.isEmpty then 0 else (gap : ℚ) + rowSpan gap ws)

theorem rowSpan_nonneg (gap : ℕ) : ∀ ws, 0 ≤ rowSpan gap ws := by
  intro ws
  induction ws with
  | nil => exact le_refl 0
  | cons w rest ih =>
    rw [rowSpan]
    by_cases hr : rest.isEmpty
    · rw [if_pos hr]
      positivity
    · rw [if_neg hr]
      positivity

/-- The span of a non-empty row is the total width plus the gaps. -/
theorem rowSpan_eq (gap : ℕ) : ∀ ws : List ℕ, ws ≠ [] →
    rowSpan gap ws = ((ws.sum : ℕ) : ℚ) + (gap : ℚ) * ((ws.length - 1 : ℕ) : ℚ) := by
  intro ws
  induction ws with
  | nil => intro h; exact absurd rfl h
  | cons w rest ih =>
    intro _
    rw [rowSpan]
    cases rest with
    | nil => simp [rowSpan]
    | cons w2 rest2 =>
      rw [if_neg (by simp), ih (by simp)]
      have h2 : (((w :: w2 :: rest2).length - 1 : ℕ) : ℚ) = (((w2 :: rest2).length : ℕ) : ℚ) := by
        simp
      have h3 : (((w2 :: rest2).length - 1 : ℕ) : ℚ) = ((rest2.length : ℕ) : ℚ) := by
        simp
      rw [h2, h3]
      push_cast [List.sum_cons, List.length_cons]
      ring

/-- Every cell emitted for one row sits at height `y` with the row height,
and horizontally inside `[x, x + rowSpan]`. -/
theorem emitRow_bounds (y : ℚ) (rh gap : ℕ) :
    ∀ (ws : List ℕ) (x : ℚ), ∀ cell ∈ emitRow y rh gap x ws,
      cell.y = y ∧ cell.height = (rh : ℚ) ∧ 0 ≤ cell.width ∧
      x ≤ cell.x ∧ cell.x + cell.width ≤ x + rowSpan gap ws := by
  intro ws
  induction ws with
  | nil =>
    intro x cell hc
    exact absurd hc (by simp [emitRow])
  | cons w rest ih =>
    intro x cell hc
    rw [emitRow] at hc
    rcases List.mem_cons.mp hc with h1 | h1
    · subst h1
      refine ⟨rfl, rfl, by positivity, le_refl _, ?_⟩
      rw [rowSpan]
      have := rowSpan_nonneg gap rest
      by_cases hr : rest.isEmpty
      · rw [if_pos hr]
        simp
      · rw [if_neg hr]
        have hg : (0 : ℚ) ≤ (gap : ℚ) := by positivity
        simp only [Rect.mk.injEq]
        linarith
    · have hrest_ne : rest ≠ [] := by
        intro h
        rw [h] at h1
        exact absurd h1 (by simp [emitRow])
      obtain ⟨hy, hh, hw, hx, hX⟩ := ih (x + (w : ℚ) + (gap : ℚ)) cell h1
      refine ⟨hy, hh, hw, ?_, ?_⟩
      · have hg : (0 : ℚ) ≤ (gap : ℚ) := by positivity
        have hwq : (0 : ℚ) ≤ (w : ℚ) := by positivity
        linarith
      · rw [rowSpan, if_neg (by simpa [List.isEmpty_iff] using hrest_ne)]
        linarith

/-- The cells of one row are pairwise separated along the x axis. -/
theorem emitRow_pairwise (y : ℚ) (rh gap : ℕ) :
    ∀ (ws : List ℕ) (x : ℚ),
      List.Pairwise (fun a b => a.x + a.width ≤ b.x) (emitRow y rh gap x ws) := by
  intro ws
  induction ws with
  | nil =>
    intro x
    exact List.Pairwise.nil
  | cons w rest ih =>
    intro x
    rw [emitRow]
    refine List.pairwise_cons.mpr ⟨?_, ih _⟩
    intro b hb
    obtain ⟨-, -, -, hx, -⟩ := emitRow_bounds y rh gap rest (x + (w : ℚ) + (gap : ℚ)) b hb
    have hg : (0 : ℚ) ≤ (gap : ℚ) := by positivity
    simp only
    linarith

/-- The vertical span of stacked rows `(rowCount, rowHeight)` separated by
`gap`. -/
def vSpan (gap : ℕ) : List (ℕ × ℕ) → ℚ
  | [] => 0
  | p :: rest => (p.2 : ℚ) + (if rest.isEmpty then 0 else (gap : ℚ) + vSpan gap rest)

theorem vSpan_nonneg (gap : ℕ) : ∀ rcs, 0 ≤ vSpan gap rcs := by
  intro rcs
  induction rcs with
  | nil => exact le_refl 0
  | cons p rest ih =>
    rw [vSpan]
    by_cases hr : rest.isEmpty
    · rw [if_pos hr]
      positivity
    · rw [if_neg hr]
      positivity

theorem vSpan_eq (gap : ℕ) : ∀ rcs : List (ℕ × ℕ), rcs ≠ [] →
    vSpan gap rcs = (((rcs.map Prod.snd).sum : ℕ) : ℚ) +
      (gap : ℚ) * ((rcs.length - 1 : ℕ) : ℚ) := by
  intro rcs
  induction rcs with
  | nil => intro h; exact absurd rfl h
  | cons p rest ih =>
    intro _
    rw [vSpan]
    cases rest with
    | nil => simp [vSpan]
    | cons q rest2 =>
      rw [if_neg (by simp), ih (by simp)]
      have h2 : (((p :: q :: rest2).length - 1 : ℕ) : ℚ) = (((q :: rest2).length : ℕ) : ℚ) := by
        simp
      have h3 : (((q :: rest2).length - 1 : ℕ) : ℚ) = ((rest2.length : ℕ) : ℚ) := by
        simp
      rw [h2, h3]
      push_cast [List.map_cons, List.sum_cons, List.length_cons]
      ring

/-- A row of `c ≥ 1` distributed column widths at the checked available
width spans exactly the full width `w`. -/
theorem rowSpan_distribute (w g c : ℕ) (hc : 1 ≤ c) (hcW : (c : ℤ) ≤ availW w g c) :
    rowSpan g (distribute ((availW w g c : ℤ) : ℚ) ((c : ℕ) : ℚ)) = (w : ℚ) := by
  have hlen : (distribute ((availW w g c : ℤ) : ℚ) ((c : ℕ) : ℚ)).length = c := by
    rw [distribute_length, Int.floor_natCast, max_eq_right (by exact_mod_cast hc),
      Int.toNat_natCast]
  have hne : distribute ((availW w g c : ℤ) : ℚ) ((c : ℕ) : ℚ) ≠ [] := by
    intro h
    rw [h] at hlen
    simp at hlen
    omega
  rw [rowSpan_eq g _ hne, distribute_sum, hlen, Int.floor_intCast]
  have hW0 : (0 : ℤ) ≤ availW w g c := by
    have : (1 : ℤ) ≤ (c : ℤ) := by exact_mod_cast hc
    omega
  rw [max_eq_right hW0]
  have h3 : (((availW w g c).toNat : ℕ) : ℚ) = ((availW w g c : ℤ) : ℚ) := by
    exact_mod_cast congrArg (fun z => ((z : ℤ) : ℚ)) (Int.toNat_of_nonneg hW0)
  rw [h3]
  unfold availW
  have h4 : ((c - 1 : ℕ) : ℚ) = (c : ℚ) - 1 := by
    push_cast [Nat.cast_sub hc]
    ring
  rw [h4]
  push_cast
  ring

/-- Every cell the stacked emission produces lies in the box
`[x0, x0 + w] × [y, y + vSpan]`. -/
theorem emitRows_bounds (x0 : ℚ) (w g : ℕ) :
    ∀ (rcs : List (ℕ × ℕ)) (y : ℚ) (cells : List Rect),
      emitRows x0 w g y rcs = some cells →
      (∀ p ∈ rcs, 1 ≤ p.1) →
      ∀ cell ∈ cells,
        x0 ≤ cell.x ∧ 0 ≤ cell.width ∧ cell.x + cell.width ≤ x0 + (w : ℚ) ∧
        y ≤ cell.y ∧ 0 ≤ cell.height ∧ cell.y + cell.height ≤ y + vSpan g rcs := by
  intro rcs
  induction rcs with
  | nil =>
    intro y cells hc hone cell hcell
    rw [emitRows] at hc
    obtain rfl : ([] : List Rect) = cells := Option.some_injective _ hc
    exact absurd hcell (by simp)
  | cons p rest ih =>
    intro y cells hc hone cell hcell
    obtain ⟨c, rh⟩ := p
    rw [emitRows] at hc
    by_cases hW : availW w g c < (c : ℤ)
    · rw [if_pos hW] at hc
      cases hc
    · rw [if_neg hW] at hc
      cases hrest : emitRows x0 w g (y + (rh : ℚ) + (g : ℚ)) rest with
      | none =>
        rw [hrest] at hc
        cases hc
      | some cells2 =>
        rw [hrest] at hc
        obtain rfl := Option.some_injective _ hc
        have hc1 : 1 ≤ c := hone (c, rh) (.head _)
        have hg : (0 : ℚ) ≤ (g : ℚ) := by positivity
        have hrh : (0 : ℚ) ≤ (rh : ℚ) := by positivity
        rcases List.mem_append.mp hcell with hrow | hrest2
        · obtain ⟨hy, hh, hwid, hx, hX⟩ :=
            emitRow_bounds y rh g _ x0 cell hrow
          rw [rowSpan_distribute w g c hc1 (not_lt.mp hW)] at hX
          refine ⟨hx, hwid, hX, by rw [hy], by rw [hh]; exact hrh, ?_⟩
          rw [hy, hh, vSpan]
          have := vSpan_nonneg g rest
          by_cases hre : rest.isEmpty
          · rw [if_pos hre]
            simp
          · rw [if_neg hre]
            linarith
        · have hrest_ne : rest ≠ [] := by
            intro h
            subst h
            rw [emitRows] at hrest
            obtain rfl := Option.some_injective _ hrest
            exact absurd hrest2 (by simp)
          obtain ⟨hx, hwid, hX, hy, hhgt, hY⟩ :=
            ih (y + (rh : ℚ) + (g : ℚ)) cells2 hrest
              (fun q hq => hone q (.tail _ hq)) cell hrest2
          refine ⟨hx, hwid, hX, by linarith, hhgt, ?_⟩
          rw [vSpan, if_neg (by simpa [List.isEmpty_iff] using hrest_ne)]
          linarith

/-- The cells the stacked emission produces are pairwise disjoint. -/
theorem emitRows_pairwise (x0 : ℚ) (w g : ℕ) :
    ∀ (rcs : List (ℕ × ℕ)) (y : ℚ) (cells : List Rect),
      emitRows x0 w g y rcs = some cells →
      (∀ p ∈ rcs, 1 ≤ p.1) →
      List.Pairwise disjointRect cells := by
  intro rcs
  induction rcs with
  | nil =>
    intro y cells hc hone
    rw [emitRows] at hc
    obtain rfl := Option.some_injective _ hc
    exact List.Pairwise.nil
  | cons p rest ih =>
    intro y cells hc hone
    obtain ⟨c, rh⟩ := p
    rw [emitRows] at hc
    by_cases hW : availW w g c < (c : ℤ)
    · rw [if_pos hW] at hc
      cases hc
    · rw [if_neg hW] at hc
      cases hrest : emitRows x0 w g (y + (rh : ℚ) + (g : ℚ)) rest with
      | none =>
        rw [hrest] at hc
        cases hc
      | some cells2 =>
        rw [hrest] at hc
        obtain rfl := Option.some_injective _ hc
        have hg : (0 : ℚ) ≤ (g : ℚ) := by positivity
        rw [List.pairwise_append]
        refine ⟨(emitRow_pairwise y rh g _ x0).imp (fun hab => Or.inl hab), ?_, ?_⟩
        · exact ih _ cells2 hrest (fun q hq => hone q (.tail _ hq))
        · intro a ha b hb
          obtain ⟨hay, hah, -, -, -⟩ := emitRow_bounds y rh g _ x0 a ha
          obtain ⟨-, -, -, hby, -, -⟩ :=
            emitRows_bounds x0 w g rest (y + (rh : ℚ) + (g : ℚ)) cells2 hrest
              (fun q hq => hone q (.tail _ hq)) b hb
          refine Or.inr (Or.inr (Or.inl ?_))
          rw [hay, hah]
          linarith

/-- The stacked rows of the packer span exactly the full height `h`. -/
theorem vSpan_zip (h g rows n : ℕ) (h1 : 1 ≤ rows) (hH : (rows : ℤ) ≤ availH h g rows) :
    vSpan g (((List.range rows).map (rowCount n rows)).zip
      (distribute ((availH h g rows : ℤ) : ℚ) ((rows : ℕ) : ℚ))) = (h : ℚ) := by
  have hlenH : (distribute ((availH h g rows : ℤ) : ℚ) ((rows : ℕ) : ℚ)).length = rows := by
    rw [distribute_length, Int.floor_natCast, max_eq_right (by exact_mod_cast h1),
      Int.toNat_natCast]
  have hlenC : ((List.range rows).map (rowCount n rows)).length = rows := by
    rw [List.length_map, List.length_range]
  have hziplen : (((List.range rows).map (rowCount n rows)).zip
      (distribute ((availH h g rows : ℤ) : ℚ) ((rows : ℕ) : ℚ))).length = rows := by
    rw [List.length_zip, hlenH, hlenC, Nat.min_self]
  have hne : (((List.range rows).map (rowCount n rows)).zip
      (distribute ((availH h g rows : ℤ) : ℚ) ((rows : ℕ) : ℚ))) ≠ [] := by
    intro hnil
    rw [hnil] at hziplen
    simp at hziplen
    omega
  rw [vSpan_eq g _ hne, List.map_snd_zip _ _ (by rw [hlenH, hlenC]), hziplen,
    distribute_sum, Int.floor_intCast]
  have hH0 : (0 : ℤ) ≤ availH h g rows := by
    have : (1 : ℤ) ≤ (rows : ℤ) := by exact_mod_cast h1
    omega
  rw [max_eq_right hH0]
  have h3 : (((availH h g rows).toNat : ℕ) : ℚ) = ((availH h g rows : ℤ) : ℚ) := by
    exact_mod_cast congrArg (fun z => ((z : ℤ) : ℚ)) (Int.toNat_of_nonneg hH0)
  rw [h3]
  unfold availH
  have h4 : ((rows - 1 : ℕ) : ℚ) = (rows : ℚ) - 1 := by
    push_cast [Nat.cast_sub h1]
    ring
  rw [h4]
  push_cast
  ring

/-- Geometry of a successful `tryBuildCellsFilled`: every cell lies inside
the rounded rectangle and the cells are pairwise disjoint. -/
theorem tryBuildCellsFilled_geometry (rect : Rect) (count gap : ℚ) (cells : List Rect)
    (hc : tryBuildCellsFilled rect count gap = some cells) :
    (∀ cell ∈ cells,
      inBox ((jsRound rect.x : ℤ) : ℚ) ((jsRound rect.y : ℤ) : ℚ)
        ((jsRound rect.width : ℤ) : ℚ) ((jsRound rect.height : ℤ) : ℚ) cell) ∧
    List.Pairwise disjointRect cells := by
  simp only [tryBuildCellsFilled] at hc
  by_cases h0 : natFloor count = 0
  · rw [if_pos h0] at hc
    obtain rfl : ([] : List Rect) = cells := Option.some_injective _ hc
    exact ⟨by intro cell hcell; exact absurd hcell (by simp), List.Pairwise.nil⟩
  · rw [if_neg h0] at hc
    by_cases hdim : jsRound rect.width ≤ 0 ∨ jsRound rect.height ≤ 0
    · rw [if_pos hdim] at hc
      exact absurd hc (by simp)
    · rw [if_neg hdim] at hc
      push_neg at hdim
      obtain ⟨hw1, hh1⟩ := hdim
      cases hbest : computeBestRowsNoWaste ((natFloor count : ℕ) : ℚ)
          ((jsRound rect.width : ℤ) : ℚ) ((jsRound rect.height : ℤ) : ℚ)
          ((natFloor gap : ℕ) : ℚ) with
      | none =>
        rw [hbest] at hc
        exact absurd hc (by simp)
      | some rows =>
        rw [hbest] at hc
        dsimp only at hc
        by_cases hr0 : rows = 0
        · rw [if_pos hr0] at hc
          exact absurd hc (by simp)
        · rw [if_neg hr0] at hc
          by_cases hnr : natFloor count / rows = 0
          · rw [if_pos hnr] at hc
            exact absurd hc (by simp)
          · rw [if_neg hnr] at hc
            by_cases hH : availH (jsRound rect.height).toNat (natFloor gap) rows < (rows : ℤ)
            · rw [if_pos hH] at hc
              exact absurd hc (by simp)
            · rw [if_neg hH] at hc
              push_neg at hH
              cases hemit : emitRows ((jsRound rect.x : ℤ) : ℚ) (jsRound rect.width).toNat
                  (natFloor gap) ((jsRound rect.y : ℤ) : ℚ)
                  (((List.range rows).map (rowCount (natFloor count) rows)).zip
                    (distribute ((availH (jsRound rect.height).toNat (natFloor gap) rows : ℤ) : ℚ)
                      ((rows : ℕ) : ℚ))) with
              | none =>
                rw [hemit] at hc
                exact absurd hc (by simp)
              | some cells0 =>
                rw [hemit] at hc
                dsimp only at hc
                by_cases hlen : cells0.length = natFloor count
                · rw [if_pos hlen] at hc
                  obtain rfl : cells0 = cells := Option.some_injective _ hc
                  have hone : ∀ p ∈ (((List.range rows).map (rowCount (natFloor count) rows)).zip
                      (distribute ((availH (jsRound rect.height).toNat (natFloor gap) rows : ℤ) : ℚ)
                        ((rows : ℕ) : ℚ))), 1 ≤ p.1 := by
                    intro p hp
                    obtain ⟨hp1, -⟩ := List.of_mem_zip hp
                    obtain ⟨r, -, hpr⟩ := List.mem_map.mp hp1
                    rw [← hpr, rowCount_eq]
                    exact le_trans (Nat.one_le_iff_ne_zero.mpr hnr) (Nat.le_add_right _ _)
                  have hwcast : (((jsRound rect.width).toNat : ℕ) : ℚ) =
                      ((jsRound rect.width : ℤ) : ℚ) := by
                    exact_mod_cast congrArg (fun z => ((z : ℤ) : ℚ))
                      (Int.toNat_of_nonneg (by omega))
                  have hhcast : (((jsRound rect.height).toNat : ℕ) : ℚ) =
                      ((jsRound rect.height : ℤ) : ℚ) := by
                    exact_mod_cast congrArg (fun z => ((z : ℤ) : ℚ))
                      (Int.toNat_of_nonneg (by omega))
                  have hvs := vSpan_zip (jsRound rect.height).toNat (natFloor gap) rows
                    (natFloor count) (by omega) hH
                  rw [hhcast] at hvs
                  constructor
                  · intro cell hcell
                    have hb := emitRows_bounds ((jsRound rect.x : ℤ) : ℚ)
                      (jsRound rect.width).toNat (natFloor gap) _ _ _ hemit hone cell hcell
                    rw [hwcast, hvs] at hb
                    exact ⟨hb.1, hb.2.2.2.1, hb.2.1, hb.2.2.2.2.1, hb.2.2.1, hb.2.2.2.2.2⟩
                  · exact emitRows_pairwise ((jsRound rect.x : ℤ) : ℚ)
                      (jsRound rect.width).toNat (natFloor gap) _ _ _ hemit hone
                · rw [if_neg hlen] at hc
                  exact absurd hc (by simp)

/-- Geometry of `buildCellsFilled`, unconditionally: every returned cell
lies inside the rounded rectangle and the cells are pairwise disjoint
(vacuously for the empty fallback). -/
theorem buildCellsFilled_geometry (rect : Rect) (count gap : ℚ) :
    (∀ cell ∈ buildCellsFilled rect count gap,
      inBox ((jsRound rect.x : ℤ) : ℚ) ((jsRound rect.y : ℤ) : ℚ)
        ((jsRound rect.width : ℤ) : ℚ) ((jsRound rect.height : ℤ) : ℚ) cell) ∧
    List.Pairwise disjointRect (buildCellsFilled rect count gap) := by
  rw [buildCellsFilled]
  by_cases h0 : natFloor count = 0
  · rw [if_pos h0]
    exact ⟨by intro cell hcell; exact absurd hcell (by simp), List.Pairwise.nil⟩
  · rw [if_neg h0]
    cases hatt : buildAttempt rect (natFloor count) (natFloor gap) 4 with
    | some cells =>
      dsimp only
      obtain ⟨gcur, hg⟩ := buildAttempt_some rect (natFloor count) 4 (natFloor gap) cells hatt
      exact tryBuildCellsFilled_geometry rect _ _ cells hg
    | none =>
      dsimp only
      cases hfb : tryBuildCellsFilled rect ((natFloor count : ℕ) : ℚ) 0 with
      | none =>
        rw [Option.getD_none]
        exact ⟨by intro cell hcell; exact absurd hcell (by simp), List.Pairwise.nil⟩
      | some cells =>
        rw [Option.getD_some]
        exact tryBuildCellsFilled_geometry rect _ _ cells hfb

/-- `Math.round(0) = 0`. -/
theorem jsRound_zero : jsRound (0 : ℚ) = 0 := by
  simp [jsRound]

/-- Containment in a box is preserved by enlarging the box. -/
theorem inBox_mono (X Y W H Xb Yb Wb Hb : ℚ) (r : Rect) (h : inBox X Y W H r)
    (hX : Xb ≤ X) (hY : Yb ≤ Y) (hXW : X + W ≤ Xb + Wb) (hYH : Y + H ≤ Yb + Hb) :
    inBox Xb Yb Wb Hb r := by
  obtain ⟨h1, h2, h3, h4, h5, h6⟩ := h
  exact ⟨by linarith, by linarith, h3, h4, by linarith, by linarith⟩

/-- Geometry of the assembled ring: a main rect inside the centered
`m × m` box and four cell lists inside the top/right/bottom/left ring
boxes are pairwise disjoint and all lie in the `s × s` canvas. -/
theorem ring_geometry_core (s m t : ℚ) (L1 L2 L3 L4 : List Rect) (main : Rect)
    (hmain : inBox t t m m main)
    (h1 : ∀ r ∈ L1, inBox 0 0 s t r) (p1 : List.Pairwise disjointRect L1)
    (h2 : ∀ r ∈ L2, inBox (t + m) t t m r) (p2 : List.Pairwise disjointRect L2)
    (h3 : ∀ r ∈ L3, inBox 0 (t + m) s t r) (p3 : List.Pairwise disjointRect L3)
    (h4 : ∀ r ∈ L4, inBox 0 t t m r) (p4 : List.Pairwise disjointRect L4)
    (hs : s = m + 2 * t) (hm : 0 ≤ m) (ht : 0 ≤ t) :
    List.Pairwise disjointRect (main :: (L1 ++ (L2 ++ (L3 ++ L4)))) ∧
    ∀ r ∈ main :: (L1 ++ (L2 ++ (L3 ++ L4))), inBox 0 0 s s r := by
  constructor
  · rw [List.pairwise_cons]
    constructor
    · intro b hb
      rcases List.mem_append.mp hb with hb1 | hb'
      · exact disjoint_of_inBox main b _ _ _ _ _ _ _ _ hmain (h1 b hb1)
          (Or.inr (Or.inr (Or.inr (by linarith))))
      rcases List.mem_append.mp hb' with hb2 | hb''
      · exact disjoint_of_inBox main b _ _ _ _ _ _ _ _ hmain (h2 b hb2)
          (Or.inl (by linarith))
      rcases List.mem_append.mp hb'' with hb3 | hb4
      · exact disjoint_of_inBox main b _ _ _ _ _ _ _ _ hmain (h3 b hb3)
          (Or.inr (Or.inr (Or.inl (by linarith))))
      · exact disjoint_of_inBox main b _ _ _ _ _ _ _ _ hmain (h4 b hb4)
          (Or.inr (Or.inl (by linarith)))
    · rw [List.pairwise_append]
      refine ⟨p1, ?_, ?_⟩
      · rw [List.pairwise_append]
        refine ⟨p2, ?_, ?_⟩
        · rw [List.pairwise_append]
          refine ⟨p3, p4, ?_⟩
          intro a ha b hb
          exact disjoint_of_inBox a b _ _ _ _ _ _ _ _ (h3 a ha) (h4 b hb)
            (Or.inr (Or.inr (Or.inr (by linarith))))
        · intro a ha b hb
          rcases List.mem_append.mp hb with hb3 | hb4
          · exact disjoint_of_inBox a b _ _ _ _ _ _ _ _ (h2 a ha) (h3 b hb3)
              (Or.inr (Or.inr (Or.inl (by linarith))))
          · exact disjoint_of_inBox a b _ _ _ _ _ _ _ _ (h2 a ha) (h4 b hb4)
              (Or.inr (Or.inl (by linarith)))
      · intro a ha b hb
        rcases List.mem_append.mp hb with hb2 | hb'
        · exact disjoint_of_inBox a b _ _ _ _ _ _ _ _ (h1 a ha) (h2 b hb2)
            (Or.inr (Or.inr (Or.inl (by linarith))))
        rcases List.mem_append.mp hb' with hb3 | hb4
        · exact disjoint_of_inBox a b _ _ _ _ _ _ _ _ (h1 a ha) (h3 b hb3)
            (Or.inr (Or.inr (Or.inl (by linarith))))
        · exact disjoint_of_inBox a b _ _ _ _ _ _ _ _ (h1 a ha) (h4 b hb4)
            (Or.inr (Or.inr (Or.inl (by linarith))))
  · intro r hr
    rcases List.mem_cons.mp hr with rfl | hr'
    · exact inBox_mono _ _ _ _ _ _ _ _ r hmain (by linarith) (by linarith)
        (by linarith) (by linarith)
    rcases List.mem_append.mp hr' with hr1 | hr''
    · exact inBox_mono _ _ _ _ _ _ _ _ r (h1 r hr1) (by linarith) (by linarith)
        (by linarith) (by linarith)
    rcases List.mem_append.mp hr'' with hr2 | hr'''
    · exact inBox_mono _ _ _ _ _ _ _ _ r (h2 r hr2) (by linarith) (by linarith)
        (by linarith) (by linarith)
    rcases List.mem_append.mp hr''' with hr3 | hr4
    · exact inBox_mono _ _ _ _ _ _ _ _ r (h3 r hr3) (by linarith) (by linarith)
        (by linarith) (by linarith)
    · exact inBox_mono _ _ _ _ _ _ _ _ r (h4 r hr4) (by linarith) (by linarith)
        (by linarith) (by linarith)

/-- Rounding a sum of two natural JS numbers. -/
theorem jsRound_natCast_add (a b : ℕ) :
    jsRound (((a : ℕ) : ℚ) + ((b : ℕ) : ℚ)) = (a : ℤ) + (b : ℤ) := by
  have h : ((a : ℕ) : ℚ) + ((b : ℕ) : ℚ) = ((a + b : ℕ) : ℚ) := by push_cast; ring
  rw [h, jsRound_natCast]
  push_cast
  ring

set_option maxHeartbeats 1000000 in
/-- C4: in every layout produced by `computeCollageLayout`, the main
rectangle and all ring cells are pairwise non-overlapping (separated along
an axis, hence of zero intersection area) and every rectangle lies within
the canvas box `[0, size] × [0, size]`. -/
theorem computeCollageLayout_geometry (options : CollageLayoutOptions) :
    List.Pairwise disjointRect
      ((computeCollageLayout options).mainRect :: (computeCollageLayout options).ringCells) ∧
    ∀ r ∈ (computeCollageLayout options).mainRect :: (computeCollageLayout options).ringCells,
      inBox 0 0 (((computeCollageLayout options).size : ℤ) : ℚ)
        (((computeCollageLayout options).size : ℤ) : ℚ) r := by
  have hs64 : (64 : ℤ) ≤ layoutSize options := le_max_left _ _
  obtain ⟨m, t, hm1, ht1, hmt, hreg⟩ :=
    computeRegions_int (layoutSize options) hs64 options.mainRatio
  have hsize : (computeCollageLayout options).size = layoutSize options := rfl
  have hmainRect : (computeCollageLayout options).mainRect =
      ⟨((t : ℕ) : ℚ), ((t : ℕ) : ℚ), ((m : ℕ) : ℚ), ((m : ℕ) : ℚ)⟩ := by
    show (computeRegions ((layoutSize options : ℤ) : ℚ) options.mainRatio).1 = _
    rw [hreg]
  have hring : (computeCollageLayout options).ringCells =
      buildCellsFilled ⟨0, 0, ((layoutSize options : ℤ) : ℚ), ((t : ℕ) : ℚ)⟩
          ((countFor (layoutCounts options) RegionName.top : ℤ) : ℚ) (layoutGap options) ++
        (buildCellsFilled ⟨((t : ℕ) : ℚ) + ((m : ℕ) : ℚ), ((t : ℕ) : ℚ), ((t : ℕ) : ℚ),
              ((m : ℕ) : ℚ)⟩
            ((countFor (layoutCounts options) RegionName.right : ℤ) : ℚ) (layoutGap options) ++
          (buildCellsFilled ⟨0, ((t : ℕ) : ℚ) + ((m : ℕ) : ℚ), ((layoutSize options : ℤ) : ℚ),
                ((t : ℕ) : ℚ)⟩
              ((countFor (layoutCounts options) RegionName.bottom : ℤ) : ℚ) (layoutGap options) ++
            buildCellsFilled ⟨0, ((t : ℕ) : ℚ), ((t : ℕ) : ℚ), ((m : ℕ) : ℚ)⟩
              ((countFor (layoutCounts options) RegionName.left : ℤ) : ℚ)
              (layoutGap options))) := by
    show (((layoutRegions options).map (fun region =>
        buildCellsFilled region.rect ((countFor (layoutCounts options) region.name : ℤ) : ℚ)
          (layoutGap options))).flatten) = _
    rw [layoutRegions, hreg]
    simp only [List.map_cons, List.map_nil, List.flatten_cons, List.flatten_nil,
      List.append_nil]
  have hg1 := buildCellsFilled_geometry ⟨0, 0, ((layoutSize options : ℤ) : ℚ), ((t : ℕ) : ℚ)⟩
    ((countFor (layoutCounts options) RegionName.top : ℤ) : ℚ) (layoutGap options)
  simp only [jsRound_zero, jsRound_natCast, jsRound_intCast, Int.cast_zero,
    Int.cast_natCast] at hg1
  have hg2 := buildCellsFilled_geometry
    ⟨((t : ℕ) : ℚ) + ((m : ℕ) : ℚ), ((t : ℕ) : ℚ), ((t : ℕ) : ℚ), ((m : ℕ) : ℚ)⟩
    ((countFor (layoutCounts options) RegionName.right : ℤ) : ℚ) (layoutGap options)
  simp only [jsRound_zero, jsRound_natCast, jsRound_natCast_add, jsRound_intCast,
    Int.cast_zero, Int.cast_add, Int.cast_natCast] at hg2
  have hg3 := buildCellsFilled_geometry
    ⟨0, ((t : ℕ) : ℚ) + ((m : ℕ) : ℚ), ((layoutSize options : ℤ) : ℚ), ((t : ℕ) : ℚ)⟩
    ((countFor (layoutCounts options) RegionName.bottom : ℤ) : ℚ) (layoutGap options)
  simp only [jsRound_zero, jsRound_natCast, jsRound_natCast_add, jsRound_intCast,
    Int.cast_zero, Int.cast_add, Int.cast_natCast] at hg3
  have hg4 := buildCellsFilled_geometry ⟨0, ((t : ℕ) : ℚ), ((t : ℕ) : ℚ), ((m : ℕ) : ℚ)⟩
    ((countFor (layoutCounts options) RegionName.left : ℤ) : ℚ) (layoutGap options)
  simp only [jsRound_zero, jsRound_natCast, jsRound_intCast, Int.cast_zero,
    Int.cast_natCast] at hg4
  have hcast : ((layoutSize options : ℤ) : ℚ) = ((m : ℕ) : ℚ) + 2 * ((t : ℕ) : ℚ) := by
    rw [← hmt]
    push_cast
    ring
  rw [hsize, hmainRect, hring]
  exact ring_geometry_core ((layoutSize options : ℤ) : ℚ) ((m : ℕ) : ℚ) ((t : ℕ) : ℚ) _ _ _ _ _
    ⟨le_rfl, le_rfl, by positivity, by positivity, le_rfl, le_rfl⟩
    hg1.1 hg1.2 hg2.1 hg2.2 hg3.1 hg3.2 hg4.1 hg4.2 hcast (by positivity) (by positivity)

/-- Height of the first cell of a row (0 for an empty row). -/
def headHeight : List Rect → ℚ
  | [] => 0
  | c :: _ => c.height

/-- `x` coordinate of the first cell of a row (0 for an empty row). -/
def headX : List Rect → ℚ
  | [] => 0
  | c :: _ => c.x

/-- Spec-modelled: within a row each cell's `x` advances by the previous
cell's width plus the gap, at constant `y` (transcribed from the spec's
words, to be compared with the emission code). -/
def rowChainSpec (gap : ℚ) : List Rect → Prop
  | [] => True
  | [_] => True
  | a :: b :: rest => (b.x = a.x + a.width + gap ∧ b.y = a.y) ∧ rowChainSpec gap (b :: rest)

/-- Spec-modelled row-major emission (transcribed from the spec's words):
rows top-to-bottom, each row nonempty, starting at `x0` on the row's
baseline `y`, cells left-to-right advancing `x` by `cellWidth + gap`, all
cells of a row sharing `y` and the row height, and the next row's `y`
advanced by `rowHeight + gap`. -/
def rowMajorSpec (x0 gap : ℚ) : ℚ → List (List Rect) → Prop
  | _, [] => True
  | y, row :: rest =>
      row ≠ [] ∧ headX row = x0 ∧ (∀ c ∈ row, c.y = y ∧ c.height = headHeight row) ∧
      rowChainSpec gap row ∧ rowMajorSpec x0 gap (y + headHeight row + gap) rest

/-- A row emitted by `emitRow` satisfies the within-row chain spec. -/
theorem emitRow_chain (y : ℚ) (rh gap : ℕ) :
    ∀ (ws : List ℕ) (x : ℚ), rowChainSpec ((gap : ℕ) : ℚ) (emitRow y rh gap x ws) := by
  intro ws
  induction ws with
  | nil =>
    intro x
    rw [emitRow]
    trivial
  | cons w rest ih =>
    intro x
    cases rest with
    | nil =>
      rw [emitRow, emitRow]
      trivial
    | cons w2 rest2 =>
      rw [emitRow, emitRow]
      exact ⟨⟨rfl, rfl⟩, by rw [← emitRow]; exact ih (x + (w : ℚ) + (gap : ℚ))⟩

/-- A nonempty emitted row starts at its given `x`. -/
theorem emitRow_headX (y : ℚ) (rh gap : ℕ) (ws : List ℕ) (x : ℚ) (h : ws ≠ []) :
    headX (emitRow y rh gap x ws) = x := by
  cases ws with
  | nil => exact absurd rfl h
  | cons w rest => rw [emitRow, headX]

/-- A row emitted from a nonempty width list is nonempty. -/
theorem emitRow_ne_nil (y : ℚ) (rh gap : ℕ) (ws : List ℕ) (x : ℚ) (h : ws ≠ []) :
    emitRow y rh gap x ws ≠ [] := by
  cases ws with
  | nil => exact absurd rfl h
  | cons w rest => rw [emitRow]; simp

/-- The head height of a nonempty emitted row is the row height. -/
theorem emitRow_headHeight (y : ℚ) (rh gap : ℕ) (ws : List ℕ) (x : ℚ) (h : ws ≠ []) :
    headHeight (emitRow y rh gap x ws) = ((rh : ℕ) : ℚ) := by
  cases ws with
  | nil => exact absurd rfl h
  | cons w rest => rw [emitRow, headHeight]

/-- `distribute` always returns at least one part. -/
theorem distribute_ne_nil (total parts : ℚ) : distribute total parts ≠ [] := by
  intro h
  have := distribute_length total parts
  rw [h] at this
  simp at this
  omega

/-- The cells produced by `emitRows` are exactly the flattening of a
row-major list of rows in the sense of the spec. -/
theorem emitRows_rowMajor (x0 : ℚ) (w g : ℕ) :
    ∀ (rcs : List (ℕ × ℕ)) (y : ℚ) (cells : List Rect),
      emitRows x0 w g y rcs = some cells →
      ∃ rows : List (List Rect), cells = rows.flatten ∧
        rowMajorSpec x0 ((g : ℕ) : ℚ) y rows := by
  intro rcs
  induction rcs with
  | nil =>
    intro y cells hc
    rw [emitRows] at hc
    obtain rfl : ([] : List Rect) = cells := Option.some_injective _ hc
    exact ⟨[], by simp, trivial⟩
  | cons p rest ih =>
    intro y cells hc
    obtain ⟨c, rh⟩ := p
    rw [emitRows] at hc
    by_cases hW : availW w g c < (c : ℤ)
    · rw [if_pos hW] at hc
      exact absurd hc (by simp)
    · rw [if_neg hW] at hc
      cases hrest : emitRows x0 w g (y + rh + g) rest with
      | none =>
        rw [hrest] at hc
        exact absurd hc (by simp)
      | some cells2 =>
        rw [hrest] at hc
        dsimp only at hc
        obtain rfl := Option.some_injective _ hc
        obtain ⟨rows2, hflat2, hmaj2⟩ := ih (y + rh + g) cells2 hrest
        set ws := distribute ((availW w g c : ℤ) : ℚ) ((c : ℕ) : ℚ) with hws
        have hwsne : ws ≠ [] := distribute_ne_nil _ _
        refine ⟨emitRow y rh g x0 ws :: rows2, by rw [List.flatten_cons, hflat2], ?_⟩
        refine ⟨emitRow_ne_nil y rh g ws x0 hwsne, emitRow_headX y rh g ws x0 hwsne, ?_, ?_, ?_⟩
        · intro cell hcell
          obtain ⟨hy, hh, -, -, -⟩ := emitRow_bounds y rh g ws x0 cell hcell
          rw [emitRow_headHeight y rh g ws x0 hwsne]
          exact ⟨hy, hh⟩
        · exact emitRow_chain y rh g ws x0
        · rw [emitRow_headHeight y rh g ws x0 hwsne]
          exact hmaj2

/-- The cells of a successful `tryBuildCellsFilled` are emitted row-major
in the sense of the spec, starting at the rounded rect's top-left corner
with the floored gap. -/
theorem tryBuildCellsFilled_rowMajor (rect : Rect) (count gap : ℚ) (cells : List Rect)
    (hc : tryBuildCellsFilled rect count gap = some cells) :
    ∃ rows : List (List Rect), cells = rows.flatten ∧
      rowMajorSpec ((jsRound rect.x : ℤ) : ℚ) ((natFloor gap : ℕ) : ℚ)
        ((jsRound rect.y : ℤ) : ℚ) rows := by
  simp only [tryBuildCellsFilled] at hc
  by_cases h0 : natFloor count = 0
  · rw [if_pos h0] at hc
    obtain rfl : ([] : List Rect) = cells := Option.some_injective _ hc
    exact ⟨[], by simp, trivial⟩
  · rw [if_neg h0] at hc
    by_cases hdim : jsRound rect.width ≤ 0 ∨ jsRound rect.height ≤ 0
    · rw [if_pos hdim] at hc
      exact absurd hc (by simp)
    · rw [if_neg hdim] at hc
      cases hbest : computeBestRowsNoWaste ((natFloor count : ℕ) : ℚ)
          ((jsRound rect.width : ℤ) : ℚ) ((jsRound rect.height : ℤ) : ℚ)
          ((natFloor gap : ℕ) : ℚ) with
      | none =>
        rw [hbest] at hc
        exact absurd hc (by simp)
      | some rows =>
        rw [hbest] at hc
        dsimp only at hc
        by_cases hr0 : rows = 0
        · rw [if_pos hr0] at hc
          exact absurd hc (by simp)
        · rw [if_neg hr0] at hc
          by_cases hnr : natFloor count / rows = 0
          · rw [if_pos hnr] at hc
            exact absurd hc (by simp)
          · rw [if_neg hnr] at hc
            by_cases hH : availH (jsRound rect.height).toNat (natFloor gap) rows < (rows : ℤ)
            · rw [if_pos hH] at hc
              exact absurd hc (by simp)
            · rw [if_neg hH] at hc
              cases hemit : emitRows ((jsRound rect.x : ℤ) : ℚ) (jsRound rect.width).toNat
                  (natFloor gap) ((jsRound rect.y : ℤ) : ℚ)
                  (((List.range rows).map (rowCount (natFloor count) rows)).zip
                    (distribute ((availH (jsRound rect.height).toNat (natFloor gap) rows : ℤ) : ℚ)
                      ((rows : ℕ) : ℚ))) with
              | none =>
                rw [hemit] at hc
                exact absurd hc (by simp)
              | some cells0 =>
                rw [hemit] at hc
                dsimp only at hc
                by_cases hlen : cells0.length = natFloor count
                · rw [if_pos hlen] at hc
                  obtain rfl : cells0 = cells := Option.some_injective _ hc
                  exact emitRows_rowMajor ((jsRound rect.x : ℤ) : ℚ)
                    (jsRound rect.width).toNat (natFloor gap) _ _ _ hemit
                · rw [if_neg hlen] at hc
                  exact absurd hc (by simp)

/-- C7: the ring cells of `computeCollageLayout` are the concatenation of
the per-region cell lists in the fixed region order top, right, bottom,
left, and within each region a successful packing emits its cells
row-major: left-to-right within a row with `x` advancing by
`cellWidth + gap`, rows top-to-bottom with `y` advancing by
`rowHeight + gap`. -/
theorem computeCollageLayout_ring_order (options : CollageLayoutOptions) :
    (layoutRegions options).map Region.name =
      [RegionName.top, RegionName.right, RegionName.bottom, RegionName.left] ∧
    (computeCollageLayout options).ringCells =
      ((layoutRegions options).map (fun region =>
        buildCellsFilled region.rect ((countFor (layoutCounts options) region.name : ℤ) : ℚ)
          (layoutGap options))).flatten ∧
    ∀ (rect : Rect) (count gap : ℚ) (cells : List Rect),
      tryBuildCellsFilled rect count gap = some cells →
      ∃ rows : List (List Rect), cells = rows.flatten ∧
        rowMajorSpec ((jsRound rect.x : ℤ) : ℚ) ((natFloor gap : ℕ) : ℚ)
          ((jsRound rect.y : ℤ) : ℚ) rows := by
  refine ⟨?_, rfl, fun rect count gap cells hc =>
    tryBuildCellsFilled_rowMajor rect count gap cells hc⟩
  obtain ⟨m, t, -, -, -, hreg⟩ :=
    computeRegions_int (layoutSize options) (le_max_left _ _) options.mainRatio
  rw [layoutRegions, hreg]
  rfl
